import Mathlib

/-!
Verification of core etcd storage components against their specification:
the WAL frame codec, the raft log (unstable tail, memory storage, raftLog
facade), the MVCC key index, and the backend bucket buffer.

Go code is shallowly embedded: machine integers become Nat (with explicit
wraparound where Go uint64 overflow matters), Go panics become Option.none,
Go errors become Except / explicit error values.
-/

namespace Wal

/-- Embedding of encodeFrameSize (server/wal/encoder.go). dataBytes is the
payload length; the result is the 64-bit length field and the pad byte
count. Go: padBytes = (8 - dataBytes%8) %8; if padBytes != 0 then
lenField |= uint64(0x80|padBytes) << 56. -/
def encodeFrameSize (dataBytes : Nat) : Nat × Nat :=
  let lenField := dataBytes
  let padBytes := (8 - dataBytes % 8) % 8
  if padBytes ≠ 0 then
    (lenField ||| ((0x80 ||| padBytes) <<< 56), padBytes)
  else
    (lenField, padBytes)

/-- Embedding of decodeFrameSize (server/wal/decoder.go). The Go input is an
int64; we carry its 64-bit two's-complement pattern as a Nat, so the Go test
lenField < 0 becomes 2^63 ≤ lenField. The Go mask ^(uint64(0xff) << 56)
equals 0xffffffffffffff (low 56 bits). -/
def decodeFrameSize (lenField : Nat) : Nat × Nat :=
  let recBytes := lenField &&& 0xffffffffffffff
  let padBytes := if 2 ^ 63 ≤ lenField then (lenField >>> 56) &&& 0x7 else 0
  (recBytes, padBytes)

/-- Disjoint bit-or is addition: a value below 2^k or-ed with a shifted value. -/
theorem lor_shiftLeft_eq (a b k : Nat) (h : a < 2 ^ k) :
    a ||| (b <<< k) = 2 ^ k * b + a := by
  rw [Nat.shiftLeft_eq, Nat.mul_comm b (2 ^ k), Nat.lor_comm]
  exact (Nat.mul_add_lt_is_or h b).symm

/-- The length field of a padded frame decomposes arithmetically. -/
theorem encodeFrameSize_padded (n pad : Nat) (hn : n < 2 ^ 56) (hp : pad < 8) :
    n ||| ((0x80 ||| pad) <<< 56) = 2 ^ 56 * (128 + pad) + n := by
  have h1 : (0x80 : Nat) ||| pad = 128 + pad := by
    have h7 : pad ||| (1 <<< 7) = 2 ^ 7 * 1 + pad := lor_shiftLeft_eq pad 1 7 (by omega)
    rw [Nat.lor_comm]
    simpa using h7
  rw [h1]
  exact lor_shiftLeft_eq n (128 + pad) 56 hn

/-- Evaluation form of decodeFrameSize: masks become mod and div. -/
theorem decodeFrameSize_eq (x : Nat) :
    decodeFrameSize x = (x % 2 ^ 56, if 2 ^ 63 ≤ x then x / 2 ^ 56 % 8 else 0) := by
  have hmask : (0xffffffffffffff : Nat) = 2 ^ 56 - 1 := by norm_num
  have hseven : (0x7 : Nat) = 2 ^ 3 - 1 := by norm_num
  unfold decodeFrameSize
  rw [hmask, Nat.and_pow_two_sub_one_eq_mod]
  refine congrArg (Prod.mk _) ?_
  split
  · rw [hseven, Nat.shiftRight_eq_div_pow, Nat.and_pow_two_sub_one_eq_mod]
  · rfl

/-- C4: for every payload length n with 0 ≤ n < 2^56, encodeFrameSize n yields
padBytes = (8 - n mod 8) mod 8 and a 64-bit length field whose low 56 bits
equal n, whose sign bit is set iff padBytes > 0, and whose bits 56..58 carry
padBytes; decodeFrameSize applied to that length field returns exactly
(n, padBytes); and the total frame size 8 + n + padBytes is a multiple of 8. -/
theorem c4_frame_codec (n : Nat) (hn : n < 2 ^ 56) :
    (encodeFrameSize n).2 = (8 - n % 8) % 8
    ∧ (encodeFrameSize n).1 % 2 ^ 56 = n
    ∧ (2 ^ 63 ≤ (encodeFrameSize n).1 ↔ 0 < (encodeFrameSize n).2)
    ∧ ((encodeFrameSize n).1 >>> 56) &&& 0x7 = (encodeFrameSize n).2
    ∧ decodeFrameSize (encodeFrameSize n).1 = (n, (encodeFrameSize n).2)
    ∧ (8 + n + (encodeFrameSize n).2) % 8 = 0 := by
  have hseven : (0x7 : Nat) = 2 ^ 3 - 1 := by norm_num
  have e56 : (2 : Nat) ^ 56 = 72057594037927936 := by norm_num
  have e63 : (2 : Nat) ^ 63 = 9223372036854775808 := by norm_num
  rw [e56] at hn
  by_cases hp : (8 - n % 8) % 8 = 0
  · have henc : encodeFrameSize n = (n, (8 - n % 8) % 8) := by
      unfold encodeFrameSize
      simp [hp]
    rw [henc, decodeFrameSize_eq]
    have hns : ¬ (2 ^ 63 ≤ n) := by rw [e63]; omega
    refine ⟨rfl, ?_, ?_, ?_, ?_, by omega⟩
    · rw [e56]; omega
    · rw [e63]; omega
    · rw [Nat.shiftRight_eq_div_pow, hseven, Nat.and_pow_two_sub_one_eq_mod, e56]
      norm_num
      omega
    · rw [if_neg hns]
      refine congrArg₂ (Prod.mk) ?_ ?_
      · rw [e56]; omega
      · omega
  · have hplt : (8 - n % 8) % 8 < 8 := by omega
    have henc : encodeFrameSize n
        = (n ||| ((0x80 ||| ((8 - n % 8) % 8)) <<< 56), (8 - n % 8) % 8) := by
      unfold encodeFrameSize
      simp [hp]
    have harith := encodeFrameSize_padded n ((8 - n % 8) % 8) (by rw [e56]; omega) hplt
    rw [henc, harith, decodeFrameSize_eq]
    have hsign : 2 ^ 63 ≤ 2 ^ 56 * (128 + (8 - n % 8) % 8) + n := by
      rw [e63, e56]; omega
    refine ⟨rfl, ?_, ?_, ?_, ?_, by omega⟩
    · rw [e56]; omega
    · rw [e63, e56]; omega
    · rw [Nat.shiftRight_eq_div_pow, hseven, Nat.and_pow_two_sub_one_eq_mod, e56]
      norm_num
      omega
    · rw [if_pos hsign]
      refine congrArg₂ (Prod.mk) ?_ ?_
      · rw [e56]; omega
      · rw [e56]; omega

/-- Witness for C4 at the concrete payload length 5 (pad 3). -/
theorem c4_frame_codec_witness :
    (encodeFrameSize 5).2 = (8 - 5 % 8) % 8
    ∧ (encodeFrameSize 5).1 % 2 ^ 56 = 5
    ∧ (2 ^ 63 ≤ (encodeFrameSize 5).1 ↔ 0 < (encodeFrameSize 5).2)
    ∧ ((encodeFrameSize 5).1 >>> 56) &&& 0x7 = (encodeFrameSize 5).2
    ∧ decodeFrameSize (encodeFrameSize 5).1 = (5, (encodeFrameSize 5).2)
    ∧ (8 + 5 + (encodeFrameSize 5).2) % 8 = 0 :=
  c4_frame_codec 5 (by norm_num)

end Wal

namespace Mvcc

/-- Revision of a key. Modelled from the spec: the revision struct is not
under src/; the spec defines a revision as a pair (main, sub) of int64,
ordered lexicographically. -/
structure revision where
  main : Int
  sub : Int
deriving Repr, DecidableEq

/-- The Go zero value of revision. -/
def zeroRev : revision := ⟨0, 0⟩

instance : Inhabited revision := ⟨zeroRev⟩

/-- Modelled from the spec: lexicographic comparison of revisions
(GreaterThan is not under src/). -/
def revision.GreaterThan (a b : revision) : Bool :=
  if a.main > b.main then true
  else if a.main < b.main then false
  else a.sub > b.sub

/-- generation (server/mvcc/key_index.go): a span of revisions of one key
between two tombstones. -/
structure generation where
  ver : Int
  created : revision
  revs : List revision
deriving Repr, DecidableEq

/-- The Go zero value of generation (generation\x7b\x7d). -/
def zeroGen : generation := ⟨0, zeroRev, []⟩

instance : Inhabited generation := ⟨zeroGen⟩

def generation.isEmpty (g : generation) : Bool := g.revs.isEmpty

/-- keyIndex (server/mvcc/key_index.go); key bytes are carried as a list of
byte values. -/
structure keyIndex where
  key : List Nat
  modified : revision
  generations : List generation
deriving Repr, DecidableEq

def keyIndex.isEmpty (ki : keyIndex) : Bool :=
  ki.generations.length = 1 && (ki.generations.getD 0 zeroGen).isEmpty

/-- keyIndex.put. The Go panic (putting a revision not greater than
modified) becomes none. -/
def keyIndex.put (ki : keyIndex) (main sub : Int) : Option keyIndex :=
  let rev : revision := ⟨main, sub⟩
  if rev.GreaterThan ki.modified then
    let gens := if ki.generations.length = 0 then ki.generations ++ [zeroGen]
                else ki.generations
    match gens.getLast? with
    | none => none
    | some g =>
      let g1 := if g.revs.length = 0 then { g with created := rev } else g
      let g2 := { g1 with revs := g1.revs ++ [rev], ver := g1.ver + 1 }
      some { ki with modified := rev, generations := gens.dropLast ++ [g2] }
  else none

/-- keyIndex.tombstone. none is the Go panic (empty keyIndex, or indexing an
empty generations slice); some (.error ()) is ErrRevisionNotFound. -/
def keyIndex.tombstone (ki : keyIndex) (main sub : Int) :
    Option (Except Unit keyIndex) :=
  if ki.isEmpty then none
  else
    match ki.generations.getLast? with
    | none => none
    | some g =>
      if g.isEmpty then some (.error ())
      else
        match ki.put main sub with
        | none => none
        | some ki1 =>
          some (.ok { ki1 with generations := ki1.generations ++ [zeroGen] })

/-- The position at which generation.walk stops for the closure used by get
and compact: walking the revisions newest to oldest, stop at the first one
whose main is at most atRev. none corresponds to the Go result -1. The
result is the greatest list position whose main is at most atRev. -/
def walkLE : List revision → Int → Option Nat
| [], _ => none
| r :: rest, atRev =>
  match walkLE rest atRev with
  | some p => some (p + 1)
  | none => if r.main ≤ atRev then some 0 else none

/-- The countdown loop of keyIndex.findGeneration; the fuel argument is
cg + 1 where cg is the current (decreasing) generation index. -/
def findGenLoop (gens : List generation) (rev : Int) (lastg : Nat) :
    Nat → Option Nat
| 0 => none
| cg + 1 =>
  let g := gens.getD cg zeroGen
  if g.revs.length = 0 then findGenLoop gens rev lastg cg
  else if cg ≠ lastg ∧ (g.revs.getLastD zeroRev).main ≤ rev then none
  else if (g.revs.headD zeroRev).main ≤ rev then some cg
  else findGenLoop gens rev lastg cg

/-- keyIndex.findGeneration: the index of the generation the given rev
belongs to, none when the rev falls in a gap (the Go nil result). -/
def keyIndex.findGeneration (ki : keyIndex) (rev : Int) : Option Nat :=
  findGenLoop ki.generations rev (ki.generations.length - 1)
    ki.generations.length

/-- keyIndex.get. none is the Go panic on an empty keyIndex; some (.error ())
is ErrRevisionNotFound; some (.ok (modified, created, ver)) is success. -/
def keyIndex.get (ki : keyIndex) (atRev : Int) :
    Option (Except Unit (revision × revision × Int)) :=
  if ki.isEmpty then none
  else
    match ki.findGeneration atRev with
    | none => some (.error ())
    | some gi =>
      let g := ki.generations.getD gi zeroGen
      if g.isEmpty then some (.error ())
      else
        match walkLE g.revs atRev with
        | some p =>
          some (.ok (g.revs.getD p zeroRev, g.created,
            g.ver - ((g.revs.length - p - 1 : Nat) : Int)))
        | none => some (.error ())

/-- A revision with strictly larger main is GreaterThan. -/
theorem gtMain {a b : revision} (h : b.main < a.main) : a.GreaterThan b = true := by
  unfold revision.GreaterThan
  rw [if_pos h]

/-- Evaluation of the first put on a fresh keyIndex. -/
theorem put_fresh (k : List Nat) (r1 s1 : Int) (h0 : 0 < r1) :
    keyIndex.put ⟨k, ⟨0, 0⟩, []⟩ r1 s1
      = some ⟨k, ⟨r1, s1⟩, [⟨1, ⟨r1, s1⟩, [⟨r1, s1⟩]⟩]⟩ := by
  simp [keyIndex.put, gtMain, h0, zeroGen, zeroRev]

/-- Evaluation of the second put. -/
theorem put_second (k : List Nat) (r1 r2 s1 s2 : Int) (h12 : r1 < r2) :
    keyIndex.put ⟨k, ⟨r1, s1⟩, [⟨1, ⟨r1, s1⟩, [⟨r1, s1⟩]⟩]⟩ r2 s2
      = some ⟨k, ⟨r2, s2⟩, [⟨2, ⟨r1, s1⟩, [⟨r1, s1⟩, ⟨r2, s2⟩]⟩]⟩ := by
  simp [keyIndex.put, gtMain, h12]

/-- Evaluation of the tombstone after two puts. -/
theorem tombstone_third (k : List Nat) (r1 r2 r3 s1 s2 s3 : Int) (h23 : r2 < r3) :
    keyIndex.tombstone ⟨k, ⟨r2, s2⟩, [⟨2, ⟨r1, s1⟩, [⟨r1, s1⟩, ⟨r2, s2⟩]⟩]⟩ r3 s3
      = some (.ok ⟨k, ⟨r3, s3⟩,
          [⟨3, ⟨r1, s1⟩, [⟨r1, s1⟩, ⟨r2, s2⟩, ⟨r3, s3⟩]⟩, zeroGen]⟩) := by
  simp [keyIndex.tombstone, keyIndex.put, keyIndex.isEmpty, generation.isEmpty,
    gtMain, h23]

/-- Evaluation of the put that re-creates the key after the tombstone. -/
theorem put_fourth (k : List Nat) (r1 r2 r3 r4 s1 s2 s3 s4 : Int) (h34 : r3 < r4) :
    keyIndex.put ⟨k, ⟨r3, s3⟩,
        [⟨3, ⟨r1, s1⟩, [⟨r1, s1⟩, ⟨r2, s2⟩, ⟨r3, s3⟩]⟩, zeroGen]⟩ r4 s4
      = some ⟨k, ⟨r4, s4⟩,
          [⟨3, ⟨r1, s1⟩, [⟨r1, s1⟩, ⟨r2, s2⟩, ⟨r3, s3⟩]⟩,
           ⟨1, ⟨r4, s4⟩, [⟨r4, s4⟩]⟩]⟩ := by
  simp [keyIndex.put, gtMain, h34, zeroGen, zeroRev]

/-- get in the window of the second put. -/
theorem get_window_two (k : List Nat) (r1 r2 r3 r4 s1 s2 s3 s4 r : Int)
    (h12 : r1 < r2) (h2 : r2 ≤ r) (h3 : r < r3) (h34 : r3 < r4) :
    keyIndex.get ⟨k, ⟨r4, s4⟩,
        [⟨3, ⟨r1, s1⟩, [⟨r1, s1⟩, ⟨r2, s2⟩, ⟨r3, s3⟩]⟩,
         ⟨1, ⟨r4, s4⟩, [⟨r4, s4⟩]⟩]⟩ r
      = some (.ok (⟨r2, s2⟩, ⟨r1, s1⟩, 2)) := by
  have e1 : ¬ (r4 ≤ r) := by omega
  have e2 : ¬ (r3 ≤ r) := by omega
  have e4 : r1 ≤ r := by omega
  simp [keyIndex.get, keyIndex.isEmpty, keyIndex.findGeneration, findGenLoop,
    walkLE, generation.isEmpty, zeroGen, zeroRev, e1, e2, h2, e4]

/-- get in the tombstone gap. -/
theorem get_gap (k : List Nat) (r1 r2 r3 r4 s1 s2 s3 s4 r : Int)
    (h3 : r3 ≤ r) (h4 : r < r4) :
    keyIndex.get ⟨k, ⟨r4, s4⟩,
        [⟨3, ⟨r1, s1⟩, [⟨r1, s1⟩, ⟨r2, s2⟩, ⟨r3, s3⟩]⟩,
         ⟨1, ⟨r4, s4⟩, [⟨r4, s4⟩]⟩]⟩ r
      = some (.error ()) := by
  have e1 : ¬ (r4 ≤ r) := by omega
  simp [keyIndex.get, keyIndex.isEmpty, keyIndex.findGeneration, findGenLoop,
    walkLE, generation.isEmpty, zeroGen, zeroRev, e1, h3]

/-- get at or after the fourth put. -/
theorem get_after_four (k : List Nat) (r1 r2 r3 r4 s1 s2 s3 s4 r : Int)
    (h4 : r4 ≤ r) :
    keyIndex.get ⟨k, ⟨r4, s4⟩,
        [⟨3, ⟨r1, s1⟩, [⟨r1, s1⟩, ⟨r2, s2⟩, ⟨r3, s3⟩]⟩,
         ⟨1, ⟨r4, s4⟩, [⟨r4, s4⟩]⟩]⟩ r
      = some (.ok (⟨r4, s4⟩, ⟨r4, s4⟩, 1)) := by
  simp [keyIndex.get, keyIndex.isEmpty, keyIndex.findGeneration, findGenLoop,
    walkLE, generation.isEmpty, zeroGen, zeroRev, h4]

/-- C3: for every keyIndex built by put(k,r1); put(k,r2); tombstone(k,r3);
put(k,r4) with main revisions 0 < r1 < r2 < r3 < r4, get(atRev = r) returns
the revision written at r2 for every r in the window between r2 and r3,
RevisionNotFound for every r between r3 and r4, and the revision written at
r4 for every r at or beyond r4. -/
theorem c3_mvcc_get_ranges (k : List Nat) (r1 r2 r3 r4 s1 s2 s3 s4 r : Int)
    (h0 : 0 < r1) (h12 : r1 < r2) (h23 : r2 < r3) (h34 : r3 < r4) :
    ∃ ki1 ki2 ki3 ki4 : keyIndex,
      keyIndex.put ⟨k, ⟨0, 0⟩, []⟩ r1 s1 = some ki1
      ∧ ki1.put r2 s2 = some ki2
      ∧ ki2.tombstone r3 s3 = some (.ok ki3)
      ∧ ki3.put r4 s4 = some ki4
      ∧ (r2 ≤ r → r < r3 → ki4.get r = some (.ok (⟨r2, s2⟩, ⟨r1, s1⟩, 2)))
      ∧ (r3 ≤ r → r < r4 → ki4.get r = some (.error ()))
      ∧ (r4 ≤ r → ki4.get r = some (.ok (⟨r4, s4⟩, ⟨r4, s4⟩, 1))) := by
  refine ⟨_, _, _, _, put_fresh k r1 s1 h0, put_second k r1 r2 s1 s2 h12,
    tombstone_third k r1 r2 r3 s1 s2 s3 h23,
    put_fourth k r1 r2 r3 r4 s1 s2 s3 s4 h34, ?_, ?_, ?_⟩
  · intro h2 h3
    exact get_window_two k r1 r2 r3 r4 s1 s2 s3 s4 r h12 h2 h3 h34
  · intro h3 h4
    exact get_gap k r1 r2 r3 r4 s1 s2 s3 s4 r h3 h4
  · intro h4
    exact get_after_four k r1 r2 r3 r4 s1 s2 s3 s4 r h4

/-- Witness for C3 at revisions 1 < 2 < 3 < 4, reading in each of the three
windows (at revisions 2, 3 and 5). -/
theorem c3_mvcc_get_ranges_witness :
    (∃ ki1 ki2 ki3 ki4 : keyIndex,
      keyIndex.put ⟨[], ⟨0, 0⟩, []⟩ 1 0 = some ki1
      ∧ ki1.put 2 0 = some ki2
      ∧ ki2.tombstone 3 0 = some (.ok ki3)
      ∧ ki3.put 4 0 = some ki4
      ∧ ((2 : Int) ≤ 2 → (2 : Int) < 3 → ki4.get 2 = some (.ok (⟨2, 0⟩, ⟨1, 0⟩, 2)))
      ∧ ((3 : Int) ≤ 2 → (2 : Int) < 4 → ki4.get 2 = some (.error ()))
      ∧ ((4 : Int) ≤ 2 → ki4.get 2 = some (.ok (⟨4, 0⟩, ⟨4, 0⟩, 1))))
    ∧ (∃ ki1 ki2 ki3 ki4 : keyIndex,
      keyIndex.put ⟨[], ⟨0, 0⟩, []⟩ 1 0 = some ki1
      ∧ ki1.put 2 0 = some ki2
      ∧ ki2.tombstone 3 0 = some (.ok ki3)
      ∧ ki3.put 4 0 = some ki4
      ∧ ((2 : Int) ≤ 3 → (3 : Int) < 3 → ki4.get 3 = some (.ok (⟨2, 0⟩, ⟨1, 0⟩, 2)))
      ∧ ((3 : Int) ≤ 3 → (3 : Int) < 4 → ki4.get 3 = some (.error ()))
      ∧ ((4 : Int) ≤ 3 → ki4.get 3 = some (.ok (⟨4, 0⟩, ⟨4, 0⟩, 1))))
    ∧ (∃ ki1 ki2 ki3 ki4 : keyIndex,
      keyIndex.put ⟨[], ⟨0, 0⟩, []⟩ 1 0 = some ki1
      ∧ ki1.put 2 0 = some ki2
      ∧ ki2.tombstone 3 0 = some (.ok ki3)
      ∧ ki3.put 4 0 = some ki4
      ∧ ((2 : Int) ≤ 5 → (5 : Int) < 3 → ki4.get 5 = some (.ok (⟨2, 0⟩, ⟨1, 0⟩, 2)))
      ∧ ((3 : Int) ≤ 5 → (5 : Int) < 4 → ki4.get 5 = some (.error ()))
      ∧ ((4 : Int) ≤ 5 → ki4.get 5 = some (.ok (⟨4, 0⟩, ⟨4, 0⟩, 1)))) :=
  ⟨c3_mvcc_get_ranges [] 1 2 3 4 0 0 0 0 2 (by decide) (by decide) (by decide) (by decide),
   c3_mvcc_get_ranges [] 1 2 3 4 0 0 0 0 3 (by decide) (by decide) (by decide) (by decide),
   c3_mvcc_get_ranges [] 1 2 3 4 0 0 0 0 5 (by decide) (by decide) (by decide) (by decide)⟩

end Mvcc

namespace Raft

/-- A raft log entry (raftpb.Entry); only the Index and Term fields are read
by the embedded code, the Type and Data payload are never inspected. -/
structure Entry where
  index : Nat
  term : Nat
deriving Repr, DecidableEq

instance : Inhabited Entry := ⟨⟨0, 0⟩⟩

/-- A raft snapshot (raftpb.Snapshot); only Metadata.Index and Metadata.Term
are read by the embedded code. -/
structure Snapshot where
  index : Nat
  term : Nat
deriving Repr, DecidableEq

/-- The unstable tail (raft/log_unstable.go). The logger field is dropped;
logging has no effect on state. -/
structure unstable where
  snapshot : Option Snapshot
  entries : List Entry
  offset : Nat
deriving Repr, DecidableEq

/-- unstable.maybeFirstIndex. -/
def unstable.maybeFirstIndex (u : unstable) : Option Nat :=
  match u.snapshot with
  | some s => some (s.index + 1)
  | none => none

/-- unstable.maybeLastIndex. -/
def unstable.maybeLastIndex (u : unstable) : Option Nat :=
  if u.entries.length ≠ 0 then some (u.offset + u.entries.length - 1)
  else
    match u.snapshot with
    | some s => some s.index
    | none => none

/-- unstable.maybeTerm. The outer Option is the Go panic (an index-out-of-
range read of u.entries, possible only in malformed states where the
snapshot reaches past the entries); the inner Option is the ok flag. -/
def unstable.maybeTerm (u : unstable) (i : Nat) : Option (Option Nat) :=
  if i < u.offset then
    match u.snapshot with
    | some s => if s.index = i then some (some s.term) else some none
    | none => some none
  else
    match u.maybeLastIndex with
    | none => some none
    | some last =>
      if last < i then some none
      else
        match u.entries.get? (i - u.offset) with
        | some e => some (some e.term)
        | none => none

/-- unstable.stableTo. Shrinking the backing array is invisible at this
level (it only changes capacity); the capacity-tracking variant below is
used for the shrink claim. -/
def unstable.stableTo (u : unstable) (i t : Nat) : Option unstable :=
  match u.maybeTerm i with
  | none => none
  | some none => some u
  | some (some gt) =>
    if gt = t ∧ u.offset ≤ i then
      some { u with entries := u.entries.drop (i + 1 - u.offset),
                    offset := i + 1 }
    else some u

/-- unstable.stableTo together with unstable.shrinkEntriesArray, with the
capacity of the Go backing array tracked explicitly: re-slicing from
position k leaves capacity cap - k, and shrinkEntriesArray reallocates to
exactly the remaining length when twice the length is below the capacity
(an empty remainder becomes nil, capacity 0). -/
def unstable.stableToCap (u : unstable) (cap : Nat) (i t : Nat) :
    Option (unstable × Nat) :=
  match u.maybeTerm i with
  | none => none
  | some none => some (u, cap)
  | some (some gt) =>
    if gt = t ∧ u.offset ≤ i then
      let k := i + 1 - u.offset
      let entries1 := u.entries.drop k
      let cap1 := cap - k
      if entries1.length = 0 then
        some ({ u with entries := [], offset := i + 1 }, 0)
      else if entries1.length * 2 < cap1 then
        some ({ u with entries := entries1, offset := i + 1 }, entries1.length)
      else
        some ({ u with entries := entries1, offset := i + 1 }, cap1)
    else some (u, cap)

/-- unstable.stableSnapTo. -/
def unstable.stableSnapTo (u : unstable) (i : Nat) : unstable :=
  match u.snapshot with
  | some s => if s.index = i then { u with snapshot := none } else u
  | none => u

/-- unstable.restore. -/
def unstable.restore (u : unstable) (s : Snapshot) : unstable :=
  { u with offset := s.index + 1, entries := [], snapshot := some s }

/-- unstable.truncateAndAppend. none is the Go panic: reading ents[0] of an
empty slice, or the out-of-bounds u.slice(u.offset, after) in the default
branch when after exceeds offset + len(entries). -/
def unstable.truncateAndAppend (u : unstable) (ents : List Entry) :
    Option unstable :=
  match ents.head? with
  | none => none
  | some e0 =>
    let after := e0.index
    if after = u.offset + u.entries.length then
      some { u with entries := u.entries ++ ents }
    else if after ≤ u.offset then
      some { u with offset := after, entries := ents }
    else
      if u.offset + u.entries.length < after then none
      else some { u with entries := u.entries.take (after - u.offset) ++ ents }

/-- C5 counterexample: a non-empty contiguous entry list whose first index
lies strictly beyond offset + len(entries) falls into the claim's
"otherwise" case, but the code panics (out-of-bounds unstable.slice)
instead of keeping a prefix and appending. -/
theorem c5_truncateAndAppend_cex :
    ((3 : Nat) ≠ (unstable.mk none [⟨1, 1⟩] 1).offset
        + (unstable.mk none [⟨1, 1⟩] 1).entries.length)
    ∧ ¬ ((3 : Nat) ≤ (unstable.mk none [⟨1, 1⟩] 1).offset)
    ∧ (unstable.mk none [⟨1, 1⟩] 1).truncateAndAppend [⟨3, 1⟩] = none := by
  decide

/-- C5 amended: for every unstable tail u and non-empty contiguous entry
list ents with first index a, truncateAndAppend extends u.entries when
a = offset + len(entries); replaces u.entries with ents and sets offset = a
when a ≤ offset; and when offset < a < offset + len(entries) keeps
entries[0 .. a - offset) and appends ents after it, leaving offset
unchanged. (The remaining case, a > offset + len(entries), panics.) -/
theorem c5_truncateAndAppend_cases (u : unstable) (ents : List Entry)
    (e0 : Entry) (hh : ents.head? = some e0)
    (hcontig : ∀ j, (h : j < ents.length) →
      (ents.get ⟨j, h⟩).index = e0.index + j) :
    (e0.index = u.offset + u.entries.length →
      u.truncateAndAppend ents = some { u with entries := u.entries ++ ents })
    ∧ (e0.index ≤ u.offset →
      u.truncateAndAppend ents
        = some { u with offset := e0.index, entries := ents })
    ∧ (u.offset < e0.index → e0.index < u.offset + u.entries.length →
      u.truncateAndAppend ents
        = some { u with entries := u.entries.take (e0.index - u.offset) ++ ents }) := by
  refine ⟨?_, ?_, ?_⟩
  · intro h1
    simp only [unstable.truncateAndAppend, hh]
    rw [if_pos h1]
  · intro h2
    simp only [unstable.truncateAndAppend, hh]
    by_cases h1 : e0.index = u.offset + u.entries.length
    · have hlen : u.entries.length = 0 := by omega
      have hoff : e0.index = u.offset := by omega
      have hnil : u.entries = [] := List.length_eq_zero.mp hlen
      rw [if_pos h1, hnil]
      cases u
      simp_all
    · rw [if_neg h1, if_pos h2]
  · intro h2 h3
    simp only [unstable.truncateAndAppend, hh]
    rw [if_neg (by omega), if_neg (by omega), if_neg (by omega)]

/-- Witness for C5 (amended), exercising all three branches at concrete
inputs: extension at a = offset + len, replacement at a ≤ offset, and
truncation in the middle. -/
theorem c5_truncateAndAppend_cases_witness :
    (((3 : Nat) = (unstable.mk none [⟨1, 1⟩, ⟨2, 1⟩] 1).offset
          + (unstable.mk none [⟨1, 1⟩, ⟨2, 1⟩] 1).entries.length →
      (unstable.mk none [⟨1, 1⟩, ⟨2, 1⟩] 1).truncateAndAppend [⟨3, 5⟩]
        = some { unstable.mk none [⟨1, 1⟩, ⟨2, 1⟩] 1 with
            entries := (unstable.mk none [⟨1, 1⟩, ⟨2, 1⟩] 1).entries ++ [⟨3, 5⟩] })
    ∧ ((3 : Nat) ≤ (unstable.mk none [⟨1, 1⟩, ⟨2, 1⟩] 1).offset →
      (unstable.mk none [⟨1, 1⟩, ⟨2, 1⟩] 1).truncateAndAppend [⟨3, 5⟩]
        = some { unstable.mk none [⟨1, 1⟩, ⟨2, 1⟩] 1 with
            offset := 3, entries := [⟨3, 5⟩] })
    ∧ ((unstable.mk none [⟨1, 1⟩, ⟨2, 1⟩] 1).offset < 3 →
        (3 : Nat) < (unstable.mk none [⟨1, 1⟩, ⟨2, 1⟩] 1).offset
          + (unstable.mk none [⟨1, 1⟩, ⟨2, 1⟩] 1).entries.length →
      (unstable.mk none [⟨1, 1⟩, ⟨2, 1⟩] 1).truncateAndAppend [⟨3, 5⟩]
        = some { unstable.mk none [⟨1, 1⟩, ⟨2, 1⟩] 1 with
            entries := (unstable.mk none [⟨1, 1⟩, ⟨2, 1⟩] 1).entries.take (3 - 1)
              ++ [⟨3, 5⟩] }))
    ∧ (((1 : Nat) ≤ (unstable.mk none [⟨2, 1⟩] 2).offset →
      (unstable.mk none [⟨2, 1⟩] 2).truncateAndAppend [⟨1, 7⟩, ⟨2, 7⟩]
        = some { unstable.mk none [⟨2, 1⟩] 2 with
            offset := 1, entries := [⟨1, 7⟩, ⟨2, 7⟩] }))
    ∧ (((unstable.mk none [⟨1, 1⟩, ⟨2, 1⟩] 1).offset < 2 →
        (2 : Nat) < (unstable.mk none [⟨1, 1⟩, ⟨2, 1⟩] 1).offset
          + (unstable.mk none [⟨1, 1⟩, ⟨2, 1⟩] 1).entries.length →
      (unstable.mk none [⟨1, 1⟩, ⟨2, 1⟩] 1).truncateAndAppend [⟨2, 9⟩]
        = some { unstable.mk none [⟨1, 1⟩, ⟨2, 1⟩] 1 with
            entries := (unstable.mk none [⟨1, 1⟩, ⟨2, 1⟩] 1).entries.take (2 - 1)
              ++ [⟨2, 9⟩] })) :=
  ⟨c5_truncateAndAppend_cases (unstable.mk none [⟨1, 1⟩, ⟨2, 1⟩] 1) [⟨3, 5⟩]
      ⟨3, 5⟩ rfl (by decide),
   (c5_truncateAndAppend_cases (unstable.mk none [⟨2, 1⟩] 2) [⟨1, 7⟩, ⟨2, 7⟩]
      ⟨1, 7⟩ rfl (by decide)).2.1,
   (c5_truncateAndAppend_cases (unstable.mk none [⟨1, 1⟩, ⟨2, 1⟩] 1) [⟨2, 9⟩]
      ⟨2, 9⟩ rfl (by decide)).2.2⟩

/-- C6: when u.term(i) = t and i ≥ u.offset, stableTo drops every entry with
index at most i and sets offset = i + 1 (so offset > i afterwards and each
remaining entry sits at an index above i), and the backing array is
reallocated to exactly the remaining length whenever its capacity exceeds
twice that length (an empty remainder releases the array entirely); when
the term lookup fails or does not match, or i < u.offset, the entries,
offset and capacity are unchanged. -/
theorem c6_stableTo_spec (u : unstable) (cap i t : Nat) :
    (u.maybeTerm i = some (some t) → u.offset ≤ i →
      ∃ u' cap', u.stableToCap cap i t = some (u', cap')
        ∧ u'.offset = i + 1
        ∧ u'.entries = u.entries.drop (i + 1 - u.offset)
        ∧ i < u'.offset
        ∧ (∀ j, j < u'.entries.length → i < u'.offset + j)
        ∧ cap' = (if 2 * u'.entries.length < cap - (i + 1 - u.offset)
                  then u'.entries.length else cap - (i + 1 - u.offset)))
    ∧ (∀ gt, u.maybeTerm i = some gt → (gt ≠ some t ∨ i < u.offset) →
        u.stableToCap cap i t = some (u, cap)) := by
  constructor
  · intro hterm hoff
    have heval : u.stableToCap cap i t
        = some (⟨u.snapshot, u.entries.drop (i + 1 - u.offset), i + 1⟩,
            if 2 * (u.entries.drop (i + 1 - u.offset)).length
                < cap - (i + 1 - u.offset)
            then (u.entries.drop (i + 1 - u.offset)).length
            else cap - (i + 1 - u.offset)) := by
      simp only [unstable.stableToCap, hterm, true_and]
      rw [if_pos hoff]
      by_cases hlen : (u.entries.drop (i + 1 - u.offset)).length = 0
      · rw [if_pos hlen, List.length_eq_zero.mp hlen]
        simp only [List.length_nil, Nat.mul_zero]
        split
        · rfl
        · have hc : cap - (i + 1 - u.offset) = 0 := by omega
          rw [hc]
      · rw [if_neg hlen]
        by_cases hshrink : (u.entries.drop (i + 1 - u.offset)).length * 2
            < cap - (i + 1 - u.offset)
        · rw [if_pos hshrink, if_pos (by omega)]
        · rw [if_neg hshrink, if_neg (by omega)]
    refine ⟨_, _, heval, rfl, rfl, Nat.lt_succ_self i, ?_, rfl⟩
    intro j hj
    show i < i + 1 + j
    omega
  · intro gt hterm hcond
    cases gt with
    | none => simp only [unstable.stableToCap, hterm]
    | some g =>
      simp only [unstable.stableToCap, hterm]
      rw [if_neg]
      rintro ⟨h1, h2⟩
      rcases hcond with hcond | hcond
      · exact hcond (by rw [h1])
      · omega

/-- Witness for C6: stabilising to index 14 of an unstable tail holding
indices 10..19 with backing capacity 30 (which is more than twice the five
remaining entries, so the array shrinks to length 5); and the unchanged
case at a non-matching term. -/
theorem c6_stableTo_spec_witness :
    ((unstable.mk none
        [⟨10, 2⟩, ⟨11, 2⟩, ⟨12, 2⟩, ⟨13, 2⟩, ⟨14, 2⟩,
         ⟨15, 2⟩, ⟨16, 2⟩, ⟨17, 2⟩, ⟨18, 2⟩, ⟨19, 2⟩] 10).maybeTerm 14
        = some (some 2) →
      (10 : Nat) ≤ 14 →
      ∃ u' cap', (unstable.mk none
        [⟨10, 2⟩, ⟨11, 2⟩, ⟨12, 2⟩, ⟨13, 2⟩, ⟨14, 2⟩,
         ⟨15, 2⟩, ⟨16, 2⟩, ⟨17, 2⟩, ⟨18, 2⟩, ⟨19, 2⟩] 10).stableToCap 30 14 2
          = some (u', cap')
        ∧ u'.offset = 14 + 1
        ∧ u'.entries = [⟨10, 2⟩, ⟨11, 2⟩, ⟨12, 2⟩, ⟨13, 2⟩, ⟨14, 2⟩,
            ⟨15, 2⟩, ⟨16, 2⟩, ⟨17, 2⟩, ⟨18, 2⟩, ⟨19, 2⟩].drop (14 + 1 - 10)
        ∧ 14 < u'.offset
        ∧ (∀ j, j < u'.entries.length → 14 < u'.offset + j)
        ∧ cap' = (if 2 * u'.entries.length < 30 - (14 + 1 - 10)
                  then u'.entries.length else 30 - (14 + 1 - 10)))
    ∧ (∀ gt, (unstable.mk none [⟨10, 2⟩] 10).maybeTerm 10 = some gt →
        (gt ≠ some 9 ∨ (10 : Nat) < 10) →
        (unstable.mk none [⟨10, 2⟩] 10).stableToCap 7 10 9
          = some (unstable.mk none [⟨10, 2⟩] 10, 7)) :=
  ⟨(c6_stableTo_spec (unstable.mk none
      [⟨10, 2⟩, ⟨11, 2⟩, ⟨12, 2⟩, ⟨13, 2⟩, ⟨14, 2⟩,
       ⟨15, 2⟩, ⟨16, 2⟩, ⟨17, 2⟩, ⟨18, 2⟩, ⟨19, 2⟩] 10) 30 14 2).1,
   (c6_stableTo_spec (unstable.mk none [⟨10, 2⟩] 10) 7 10 9).2⟩

/-- Errors surfaced by the Storage interface (raft/log_unstable.go part 2);
only the two raised by the embedded methods appear. -/
inductive Err where
  | compacted
  | unavailable
deriving Repr, DecidableEq

/-- MemoryStorage (raft/log_unstable.go part 2). Only the entry array is
modelled: hardState and the stored snapshot are never read by the methods
the claims exercise, and the mutex is irrelevant in a sequential model.
ents[0] is the dummy entry at the latest snapshot position. -/
structure MemoryStorage where
  ents : List Entry
deriving Repr, DecidableEq

/-- MemoryStorage.lastIndex (none when the entry array is empty, which the
Go constructors never produce; reading ents[0] would panic there). -/
def MemoryStorage.lastIndex? (ms : MemoryStorage) : Option Nat :=
  ms.ents.head?.map (fun e0 => e0.index + ms.ents.length - 1)

/-- MemoryStorage.firstIndex. -/
def MemoryStorage.firstIndex? (ms : MemoryStorage) : Option Nat :=
  ms.ents.head?.map (fun e0 => e0.index + 1)

/-- MemoryStorage.Term. The outer Option is the Go panic on an empty entry
array; .error carries ErrCompacted / ErrUnavailable. -/
def MemoryStorage.Term (ms : MemoryStorage) (i : Nat) :
    Option (Except Err Nat) :=
  match ms.ents.head? with
  | none => none
  | some e0 =>
    if i < e0.index then some (.error .compacted)
    else if ms.ents.length ≤ i - e0.index then some (.error .unavailable)
    else
      match ms.ents.get? (i - e0.index) with
      | some e => some (.ok e.term)
      | none => none

/-- limitSize. Modelled from the spec: limitSize is not under src/; the spec
says Entries returns a byte-limited prefix holding at least one entry when
any are in range, so the first entry is always kept and later entries are
kept while the accumulated size stays within maxSize. The per-entry byte
size is abstracted as the sizeOf argument. -/
def limitSize (sizeOf : Entry → Nat) : List Entry → Nat → List Entry
  | [], _ => []
  | e :: rest, maxSize => e :: limitAux sizeOf (sizeOf e) rest maxSize
where
  limitAux (sizeOf : Entry → Nat) (acc : Nat) : List Entry → Nat → List Entry
  | [], _ => []
  | e :: rest, maxSize =>
    if maxSize < acc + sizeOf e then []
    else e :: limitAux sizeOf (acc + sizeOf e) rest maxSize

/-- MemoryStorage.Entries. The outer Option is a Go panic: an empty entry
array, hi beyond lastIndex+1, or an inverted slice lo > hi. -/
def MemoryStorage.Entries (ms : MemoryStorage) (lo hi maxSize : Nat)
    (sizeOf : Entry → Nat) : Option (Except Err (List Entry)) :=
  match ms.ents.head? with
  | none => none
  | some e0 =>
    let offset := e0.index
    if lo ≤ offset then some (.error .compacted)
    else if e0.index + ms.ents.length - 1 + 1 < hi then none
    else if ms.ents.length = 1 then some (.error .unavailable)
    else if hi < lo then none
    else
      some (.ok (limitSize sizeOf ((ms.ents.drop (lo - offset)).take (hi - lo))
        maxSize))

/-- C10: a MemoryStorage holding only the dummy entry answers every
Entries(lo, hi, maxBytes) call with lo above the dummy index and hi at most
lastIndex + 1 with ErrUnavailable — not an empty slice and not
ErrCompacted. -/
theorem c10_entries_unavailable_on_dummy_only (d : Entry) (lo hi maxSize : Nat)
    (sizeOf : Entry → Nat)
    (hlo : d.index < lo) (hhi : hi ≤ d.index + 1) :
    (MemoryStorage.mk [d]).Entries lo hi maxSize sizeOf
      = some (.error .unavailable) := by
  unfold MemoryStorage.Entries
  simp only [List.head?_cons]
  rw [if_neg (by omega), if_neg (by simp; omega), if_pos (by simp)]

/-- Witness for C10 at a dummy entry of index 3 and the call
Entries(4, 4, 0). -/
theorem c10_entries_unavailable_on_dummy_only_witness :
    (MemoryStorage.mk [⟨3, 1⟩]).Entries 4 4 0 (fun _ => 0)
      = some (.error .unavailable) :=
  c10_entries_unavailable_on_dummy_only ⟨3, 1⟩ 4 4 0 (fun _ => 0)
    (by decide) (by decide)

/-- raftLog (the raftLog file of the repository, src/unnamed/part_000). The
logger and maxNextEntsSize fields are dropped: logging has no effect on
state and maxNextEntsSize is only read by nextEnts, which no claim
exercises. The concrete Storage is MemoryStorage, as in the repository. -/
structure raftLog where
  storage : MemoryStorage
  unstable : unstable
  committed : Nat
  applied : Nat
deriving Repr, DecidableEq

/-- raftLog.firstIndex (none is the Go panic when the storage is empty). -/
def raftLog.firstIndex (l : raftLog) : Option Nat :=
  match l.unstable.maybeFirstIndex with
  | some i => some i
  | none => l.storage.firstIndex?

/-- raftLog.lastIndex (none is the Go panic when the storage is empty). -/
def raftLog.lastIndex (l : raftLog) : Option Nat :=
  match l.unstable.maybeLastIndex with
  | some i => some i
  | none => l.storage.lastIndex?

/-- raftLog.term. Go returns (0, nil) outside [dummyIndex, lastIndex],
consults unstable first and storage second; the outer Option is a panic
propagated from the lookups. -/
def raftLog.term (l : raftLog) (i : Nat) : Option (Except Err Nat) :=
  match l.firstIndex, l.lastIndex with
  | some fi, some li =>
    if i < fi - 1 ∨ li < i then some (.ok 0)
    else
      match l.unstable.maybeTerm i with
      | none => none
      | some (some t) => some (.ok t)
      | some none => l.storage.Term i
  | _, _ => none

/-- raftLog.matchTerm: term errors mean no match. -/
def raftLog.matchTerm (l : raftLog) (i t : Nat) : Option Bool :=
  match l.term i with
  | none => none
  | some (.ok u) => some (u = t)
  | some (.error _) => some false

/-- raftLog.zeroTermOnErrCompacted: ErrCompacted becomes term 0, any other
error is a panic. -/
def raftLog.zeroTermOnErrCompacted (l : raftLog) :
    Option (Except Err Nat) → Option Nat
  | none => none
  | some (.ok t) => some t
  | some (.error .compacted) => some 0
  | some (.error .unavailable) => none

/-- raftLog.commitTo: never decrease commit; panic when tocommit is beyond
lastIndex. -/
def raftLog.commitTo (l : raftLog) (tocommit : Nat) : Option raftLog :=
  if l.committed < tocommit then
    match l.lastIndex with
    | none => none
    | some li =>
      if li < tocommit then none
      else some { l with committed := tocommit }
  else some l

/-- raftLog.appliedTo: panic outside [applied, committed]; 0 is a no-op. -/
def raftLog.appliedTo (l : raftLog) (i : Nat) : Option raftLog :=
  if i = 0 then some l
  else if l.committed < i ∨ i < l.applied then none
  else some { l with applied := i }

/-- raftLog.stableTo delegates to the unstable tail. -/
def raftLog.stableTo (l : raftLog) (i t : Nat) : Option raftLog :=
  (l.unstable.stableTo i t).map (fun u => { l with unstable := u })

/-- raftLog.append. The Go uint64 expression ents[0].Index - 1 wraps to
2^64 - 1 when the first index is 0, so the committed guard passes there;
the wrap is modelled explicitly. -/
def raftLog.append (l : raftLog) (ents : List Entry) : Option raftLog :=
  if ents.length = 0 then some l
  else
    match ents.head? with
    | none => none
    | some e0 =>
      if (if e0.index = 0 then 2 ^ 64 - 1 else e0.index - 1) < l.committed
      then none
      else
        match l.unstable.truncateAndAppend ents with
        | none => none
        | some u => some { l with unstable := u }

/-- raftLog.findConflict. The traversal asks matchTerm for each entry; the
logging branch evaluates zeroTermOnErrCompacted(term(index)), whose panic
is kept (outer none). -/
def raftLog.findConflict (l : raftLog) : List Entry → Option Nat
  | [] => some 0
  | ne :: rest =>
    match l.matchTerm ne.index ne.term with
    | none => none
    | some true => l.findConflict rest
    | some false =>
      match l.lastIndex with
      | none => none
      | some li =>
        if ne.index ≤ li then
          match l.zeroTermOnErrCompacted (l.term ne.index) with
          | none => none
          | some _ => some ne.index
        else some ne.index

/-- raftLog.maybeAppend. The result some (lastnewi, ok, state); none is a
panic (conflict below committed, a panic inside append/commitTo, or the Go
slice ents[ci-offset:] with ci outside [index+1, index+1+len]). -/
def raftLog.maybeAppend (l : raftLog) (index logTerm committed : Nat)
    (ents : List Entry) : Option (Nat × Bool × raftLog) :=
  match l.matchTerm index logTerm with
  | none => none
  | some false => some (0, false, l)
  | some true =>
    let lastnewi := index + ents.length
    match l.findConflict ents with
    | none => none
    | some ci =>
      let step1 : Option raftLog :=
        if ci = 0 then some l
        else if ci ≤ l.committed then none
        else if ci < index + 1 ∨ ents.length < ci - (index + 1) then none
        else l.append (ents.drop (ci - (index + 1)))
      match step1 with
      | none => none
      | some l1 =>
        match l1.commitTo (min committed lastnewi) with
        | none => none
        | some l2 => some (lastnewi, true, l2)

/-- raftLog.maybeCommit. -/
def raftLog.maybeCommit (l : raftLog) (maxIndex t : Nat) :
    Option (Bool × raftLog) :=
  if l.committed < maxIndex then
    match l.zeroTermOnErrCompacted (l.term maxIndex) with
    | none => none
    | some u =>
      if u = t then (l.commitTo maxIndex).map (fun l2 => (true, l2))
      else some (false, l)
  else some (false, l)

/-- raftLog.restore: reset committed to the snapshot index and hand the
snapshot to the unstable tail. -/
def raftLog.restore (l : raftLog) (s : Snapshot) : raftLog :=
  { l with committed := s.index, unstable := l.unstable.restore s }

/-- newLogWithSize restricted to the fields the claims track: unstable
offset starts at storage lastIndex + 1 and committed/applied at
firstIndex - 1 (none is the Go panic on an empty storage). -/
def newLog (ms : MemoryStorage) : Option raftLog :=
  match ms.firstIndex?, ms.lastIndex? with
  | some fi, some li =>
    some { storage := ms,
           unstable := { snapshot := none, entries := [], offset := li + 1 },
           committed := fi - 1, applied := fi - 1 }
  | _, _ => none

/-- C8 counterexample: restore(s) does not reset applied. A raftLog with
applied = 1 restored from a snapshot at index 3 keeps applied = 1. -/
theorem c8_restore_cex :
    ((raftLog.mk ⟨[⟨0, 0⟩]⟩ ⟨none, [], 1⟩ 2 1).restore ⟨3, 1⟩).applied ≠ 3
    ∧ ((raftLog.mk ⟨[⟨0, 0⟩]⟩ ⟨none, [], 1⟩ 2 1).restore ⟨3, 1⟩).applied = 1 := by
  decide

/-- C8 amended: after l.restore(s) the unstable tail holds s as its pending
snapshot with entries cleared and offset = s.index + 1, and committed is
reset to s.index; applied (and the stable storage) are left unchanged. -/
theorem c8_restore_spec (l : raftLog) (s : Snapshot) :
    (l.restore s).committed = s.index
    ∧ (l.restore s).unstable.snapshot = some s
    ∧ (l.restore s).unstable.entries = []
    ∧ (l.restore s).unstable.offset = s.index + 1
    ∧ (l.restore s).applied = l.applied
    ∧ (l.restore s).storage = l.storage :=
  ⟨rfl, rfl, rfl, rfl, rfl, rfl⟩

end Raft

namespace Raft

/-- Well-formedness of a raftLog as maintained by the code: the storage is
non-empty, a pending snapshot pins the unstable offset just above it, and
without a snapshot the offset does not run ahead of the storage (and an
empty unstable tail starts exactly at storage lastIndex + 1). -/
def wellFormed (l : raftLog) : Prop :=
  l.storage.ents ≠ []
  ∧ (∀ s, l.unstable.snapshot = some s → l.unstable.offset = s.index + 1)
  ∧ (l.unstable.snapshot = none →
      ∃ li, l.storage.lastIndex? = some li ∧ l.unstable.offset ≤ li + 1)
  ∧ (l.unstable.entries = [] → l.unstable.snapshot = none →
      ∃ li, l.storage.lastIndex? = some li ∧ l.unstable.offset = li + 1)

theorem storage_head (ms : MemoryStorage) (hne : ms.ents ≠ []) :
    ∃ e0, ms.ents.head? = some e0
      ∧ ms.firstIndex? = some (e0.index + 1)
      ∧ ms.lastIndex? = some (e0.index + ms.ents.length - 1) := by
  obtain ⟨e0, tl, hents⟩ := List.exists_cons_of_ne_nil hne
  refine ⟨e0, ?_, ?_, ?_⟩ <;>
    simp [hents, MemoryStorage.firstIndex?, MemoryStorage.lastIndex?]

theorem raftLog.lastIndex_total (l : raftLog) (hne : l.storage.ents ≠ []) :
    ∃ li, l.lastIndex = some li := by
  obtain ⟨e0, hh, hfi, hli⟩ := storage_head l.storage hne
  unfold raftLog.lastIndex
  match hm : l.unstable.maybeLastIndex with
  | some i => exact ⟨i, rfl⟩
  | none => exact ⟨_, by rw [hli]⟩

theorem raftLog.firstIndex_total (l : raftLog) (hne : l.storage.ents ≠ []) :
    ∃ fi, l.firstIndex = some fi := by
  obtain ⟨e0, hh, hfi, hli⟩ := storage_head l.storage hne
  unfold raftLog.firstIndex
  match hm : l.unstable.maybeFirstIndex with
  | some i => exact ⟨i, rfl⟩
  | none => exact ⟨_, by rw [hfi]⟩

end Raft
namespace Raft

theorem unstable.maybeTerm_none_elim (u : unstable) (i : Nat)
    (h : u.maybeTerm i = none) :
    ¬ i < u.offset ∧ (∃ last, u.maybeLastIndex = some last ∧ ¬ last < i)
      ∧ u.entries.get? (i - u.offset) = none := by
  unfold unstable.maybeTerm at h
  split at h
  · split at h
    · split at h <;> simp_all
    · simp_all
  · split at h
    · simp_all
    · split at h
      · simp_all
      · split at h <;> simp_all

theorem unstable.maybeTerm_some_none_elim (u : unstable) (i : Nat)
    (h : u.maybeTerm i = some none) :
    (i < u.offset ∧ (∀ s, u.snapshot = some s → s.index ≠ i))
    ∨ (¬ i < u.offset ∧ (u.maybeLastIndex = none
        ∨ ∃ last, u.maybeLastIndex = some last ∧ last < i)) := by
  unfold unstable.maybeTerm at h
  split at h
  · rename_i hio
    refine .inl ⟨hio, ?_⟩
    intro s hs
    rw [hs] at h
    split at h <;> simp_all
  · rename_i hio
    refine .inr ⟨hio, ?_⟩
    split at h
    · exact .inl (by assumption)
    · rename_i last hml
      split at h
      · exact .inr ⟨last, hml, by assumption⟩
      · split at h <;> simp_all

end Raft
namespace Raft

theorem raftLog.term_spec (l : raftLog) (hwf : wellFormed l) (i : Nat) :
    (∃ t, l.term i = some (.ok t)) ∨ l.term i = some (.error .compacted) := by
  obtain ⟨hne, hsnap, hnosnap, hempty⟩ := hwf
  obtain ⟨e0, hh, hfi0, hli0⟩ := storage_head l.storage hne
  obtain ⟨fi, hfi⟩ := raftLog.firstIndex_total l hne
  obtain ⟨li, hli⟩ := raftLog.lastIndex_total l hne
  by_cases hrange : i < fi - 1 ∨ li < i
  · refine .inl ⟨0, ?_⟩
    simp only [raftLog.term, hfi, hli]
    rw [if_pos hrange]
  · have hni := hrange
    push_neg at hrange
    obtain ⟨hlow, hhigh⟩ := hrange
    cases hmt : l.unstable.maybeTerm i with
    | some ot =>
      cases ot with
      | some t =>
        refine .inl ⟨t, ?_⟩
        simp only [raftLog.term, hfi, hli]
        rw [if_neg hni]
        simp only [hmt]
      | none =>
        have heq : l.term i = l.storage.Term i := by
          simp only [raftLog.term, hfi, hli]
          rw [if_neg hni]
          simp only [hmt]
        rw [heq]
        rcases unstable.maybeTerm_some_none_elim _ _ hmt with ⟨hio, hsn⟩ | ⟨hio, hcase⟩
        · cases hs : l.unstable.snapshot with
          | some s =>
            have hoff := hsnap s hs
            have hfieq : fi = s.index + 1 := by
              unfold raftLog.firstIndex unstable.maybeFirstIndex at hfi
              rw [hs] at hfi
              exact (Option.some_inj.mp hfi).symm
            exact absurd (show s.index = i by omega) (hsn s hs)
          | none =>
            obtain ⟨sli, hsli, hle⟩ := hnosnap hs
            have hslieq : sli = e0.index + l.storage.ents.length - 1 := by
              rw [hli0] at hsli
              exact (Option.some_inj.mp hsli).symm
            have hlen1 : 1 ≤ l.storage.ents.length := List.length_pos.mpr hne
            simp only [MemoryStorage.Term, hh]
            by_cases hcomp : i < e0.index
            · rw [if_pos hcomp]
              exact .inr rfl
            · rw [if_neg hcomp]
              have hinb : ¬ (l.storage.ents.length ≤ i - e0.index) := by omega
              rw [if_neg hinb]
              cases hg : l.storage.ents.get? (i - e0.index) with
              | some e =>
                refine .inl ⟨e.term, ?_⟩
                simp only [hg]
              | none => exact absurd (List.get?_eq_none.mp hg) hinb
        · exfalso
          rcases hcase with hml | ⟨last, hml, hlast⟩
          · have hent : l.unstable.entries = [] := by
              by_contra hent
              unfold unstable.maybeLastIndex at hml
              rw [if_pos (by simpa using hent)] at hml
              cases hml
            have hsnone : l.unstable.snapshot = none := by
              cases hs : l.unstable.snapshot with
              | none => rfl
              | some s =>
                unfold unstable.maybeLastIndex at hml
                rw [if_neg (by simp [hent]), hs] at hml
                cases hml
            obtain ⟨sli, hsli, hoffeq⟩ := hempty hent hsnone
            have hlieq : li = sli := by
              unfold raftLog.lastIndex unstable.maybeLastIndex at hli
              rw [if_neg (by simp [hent]), hsnone] at hli
              rw [hsli] at hli
              exact (Option.some_inj.mp hli).symm
            omega
          · have hlieq : li = last := by
              unfold raftLog.lastIndex at hli
              rw [hml] at hli
              exact (Option.some_inj.mp hli).symm
            omega
    | none =>
      exfalso
      obtain ⟨hio, ⟨last, hml, hlast⟩, hget⟩ := unstable.maybeTerm_none_elim _ _ hmt
      by_cases he : l.unstable.entries = []
      · unfold unstable.maybeLastIndex at hml
        rw [if_neg (by simp [he])] at hml
        cases hs : l.unstable.snapshot with
        | none =>
          rw [hs] at hml
          cases hml
        | some s =>
          rw [hs] at hml
          have hsi : s.index = last := Option.some_inj.mp hml
          have hoff := hsnap s hs
          omega
      · unfold unstable.maybeLastIndex at hml
        rw [if_pos (by simpa using he)] at hml
        have hlasteq : last = l.unstable.offset + l.unstable.entries.length - 1 :=
          (Option.some_inj.mp hml).symm
        have hlen1 : 1 ≤ l.unstable.entries.length :=
          List.length_pos.mpr he
        have := List.get?_eq_none.mp hget
        omega


theorem raftLog.matchTerm_total (l : raftLog) (hwf : wellFormed l) (i t : Nat) :
    ∃ b, l.matchTerm i t = some b := by
  rcases raftLog.term_spec l hwf i with ⟨u, hu⟩ | hc
  · exact ⟨decide (u = t), by simp only [raftLog.matchTerm, hu]⟩
  · exact ⟨false, by simp only [raftLog.matchTerm, hc]⟩

theorem raftLog.zeroTerm_total (l : raftLog) (hwf : wellFormed l) (i : Nat) :
    ∃ v, l.zeroTermOnErrCompacted (l.term i) = some v := by
  rcases raftLog.term_spec l hwf i with ⟨u, hu⟩ | hc
  · exact ⟨u, by rw [hu]; rfl⟩
  · exact ⟨0, by rw [hc]; rfl⟩

theorem raftLog.term_ok_le (l : raftLog) {i t li fi : Nat} (ht : 0 < t)
    (hterm : l.term i = some (.ok t))
    (hfi : l.firstIndex = some fi) (hli : l.lastIndex = some li) :
    fi - 1 ≤ i ∧ i ≤ li := by
  simp only [raftLog.term, hfi, hli] at hterm
  by_cases hrange : i < fi - 1 ∨ li < i
  · rw [if_pos hrange] at hterm
    have : (0 : Nat) = t := by
      cases hmt : l.unstable.maybeTerm i <;> simp_all
    omega
  · push_neg at hrange
    exact hrange

theorem raftLog.matchTerm_true_le (l : raftLog) {i t li fi : Nat} (ht : 0 < t)
    (hm : l.matchTerm i t = some true)
    (hfi : l.firstIndex = some fi) (hli : l.lastIndex = some li) :
    fi - 1 ≤ i ∧ i ≤ li := by
  unfold raftLog.matchTerm at hm
  cases hterm : l.term i with
  | none => rw [hterm] at hm; cases hm
  | some r =>
    cases r with
    | ok u =>
      rw [hterm] at hm
      simp at hm
      subst hm
      exact raftLog.term_ok_le l ht hterm hfi hli
    | error e => rw [hterm] at hm; simp at hm

theorem raftLog.findConflict_first (l : raftLog) (hwf : wellFormed l) :
    ∀ ents : List Entry,
      ((∀ e ∈ ents, l.matchTerm e.index e.term = some true)
        ∧ l.findConflict ents = some 0)
      ∨ ∃ k, ∃ hk : k < ents.length,
          l.findConflict ents = some (ents.get ⟨k, hk⟩).index
          ∧ l.matchTerm (ents.get ⟨k, hk⟩).index (ents.get ⟨k, hk⟩).term
              = some false
          ∧ ∀ j, (hj : j < ents.length) → j < k →
              l.matchTerm (ents.get ⟨j, hj⟩).index (ents.get ⟨j, hj⟩).term
                = some true := by
  intro ents
  induction ents with
  | nil => exact .inl ⟨by simp, rfl⟩
  | cons ne rest ih =>
    obtain ⟨b, hb⟩ := raftLog.matchTerm_total l hwf ne.index ne.term
    cases b with
    | true =>
      rcases ih with ⟨hall, hfc⟩ | ⟨k, hk, hfc, hmf, hpre⟩
      · refine .inl ⟨?_, ?_⟩
        · intro e he
          rcases List.mem_cons.mp he with rfl | hmem
          · exact hb
          · exact hall e hmem
        · simp only [raftLog.findConflict, hb]
          exact hfc
      · refine .inr ⟨k + 1, by simpa using Nat.succ_lt_succ hk, ?_, ?_, ?_⟩
        · simp only [raftLog.findConflict, hb]
          simpa using hfc
        · simpa using hmf
        · intro j hj hjk
          cases j with
          | zero => simpa using hb
          | succ j0 =>
            have hj0 : j0 < rest.length := by simpa using hj
            have := hpre j0 hj0 (by omega)
            simpa using this
    | false =>
      obtain ⟨li, hli⟩ := raftLog.lastIndex_total l hwf.1
      obtain ⟨v, hv⟩ := raftLog.zeroTerm_total l hwf ne.index
      refine .inr ⟨0, by simp, ?_, by simpa using hb, by omega⟩
      simp only [raftLog.findConflict, hb, hli]
      by_cases hle : ne.index ≤ li
      · rw [if_pos hle, hv]
        simp
      · rw [if_neg hle]
        simp


theorem unstable.truncateAndAppend_spec (u : unstable) (ents : List Entry)
    (e0 : Entry) (hh : ents.head? = some e0)
    (hbound : e0.index ≤ u.offset + u.entries.length) :
    ∃ u2, u.truncateAndAppend ents = some u2
      ∧ u2.snapshot = u.snapshot
      ∧ u2.entries ≠ []
      ∧ u2.offset + u2.entries.length = e0.index + ents.length := by
  have hne : ents ≠ [] := by
    intro h
    rw [h] at hh
    cases hh
  simp only [unstable.truncateAndAppend, hh]
  by_cases h1 : e0.index = u.offset + u.entries.length
  · rw [if_pos h1]
    refine ⟨_, rfl, rfl, by simp [hne], ?_⟩
    simp
    omega
  · rw [if_neg h1]
    by_cases h2 : e0.index ≤ u.offset
    · rw [if_pos h2]
      refine ⟨_, rfl, rfl, hne, by simp⟩
    · rw [if_neg h2, if_neg (by omega)]
      refine ⟨_, rfl, rfl, by simp [hne], ?_⟩
      simp
      rw [min_eq_left (by omega)]
      omega

theorem raftLog.append_spec (l : raftLog) (ents : List Entry) (e0 : Entry)
    (hh : ents.head? = some e0) (hcom : l.committed < e0.index)
    (hbound : e0.index ≤ l.unstable.offset + l.unstable.entries.length) :
    ∃ l1, l.append ents = some l1
      ∧ l1.storage = l.storage
      ∧ l1.committed = l.committed
      ∧ l1.applied = l.applied
      ∧ l1.lastIndex = some (e0.index + ents.length - 1)
      ∧ ∃ u2, l.unstable.truncateAndAppend ents = some u2
          ∧ l1.unstable = u2 := by
  have hne : ents ≠ [] := by
    intro h
    rw [h] at hh
    cases hh
  obtain ⟨u2, htaa, hsnap2, hne2, hlen2⟩ :=
    unstable.truncateAndAppend_spec l.unstable ents e0 hh hbound
  refine ⟨{ l with unstable := u2 }, ?_, rfl, rfl, rfl, ?_, u2, htaa, rfl⟩
  · simp only [raftLog.append, hh]
    rw [if_neg (show ¬ ents.length = 0 by simpa using hne)]
    simp only [if_neg (show ¬ e0.index = 0 by omega)]
    rw [if_neg (show ¬ (e0.index - 1 < l.committed) by omega)]
    rw [htaa]
  · have hml : u2.maybeLastIndex = some (u2.offset + u2.entries.length - 1) := by
      unfold unstable.maybeLastIndex
      rw [if_pos (by simpa using hne2)]
    have hlast : ({ l with unstable := u2 } : raftLog).lastIndex
        = some (u2.offset + u2.entries.length - 1) := by
      unfold raftLog.lastIndex
      simp only [hml]
    rw [hlast]
    congr 1
    have hpos : 1 ≤ ents.length := List.length_pos.mpr hne
    omega

theorem raftLog.commitTo_le (l : raftLog) {li : Nat}
    (hli : l.lastIndex = some li) (tocommit : Nat) (hto : tocommit ≤ li) :
    l.commitTo tocommit = some { l with committed := max l.committed tocommit } := by
  unfold raftLog.commitTo
  by_cases h : l.committed < tocommit
  · rw [if_pos h]
    simp only [hli]
    rw [if_neg (by omega), Nat.max_eq_right (Nat.le_of_lt h)]
  · rw [if_neg h, Nat.max_eq_left (Nat.le_of_not_lt h)]

theorem wellFormed_off_len (l : raftLog) (hwf : wellFormed l) {li : Nat}
    (hli : l.lastIndex = some li) :
    l.unstable.offset + l.unstable.entries.length = li + 1 := by
  obtain ⟨hne, hsnap, hnosnap, hempty⟩ := hwf
  by_cases he : l.unstable.entries = []
  · cases hs : l.unstable.snapshot with
    | some s =>
      have hoff := hsnap s hs
      have : li = s.index := by
        unfold raftLog.lastIndex unstable.maybeLastIndex at hli
        rw [if_neg (by simp [he]), hs] at hli
        exact (Option.some_inj.mp hli).symm
      rw [he]
      simp
      omega
    | none =>
      obtain ⟨sli, hsli, hoffeq⟩ := hempty he hs
      have : li = sli := by
        unfold raftLog.lastIndex unstable.maybeLastIndex at hli
        rw [if_neg (by simp [he]), hs] at hli
        rw [hsli] at hli
        exact (Option.some_inj.mp hli).symm
      rw [he]
      simp
      omega
  · have hlen1 : 1 ≤ l.unstable.entries.length := List.length_pos.mpr he
    have : li = l.unstable.offset + l.unstable.entries.length - 1 := by
      unfold raftLog.lastIndex unstable.maybeLastIndex at hli
      rw [if_pos (by simpa using he)] at hli
      exact (Option.some_inj.mp hli).symm
    omega


/-- C1 amended: for a well-formed raftLog and MsgApp-shaped entries
(contiguous from prevIndex + 1, positive terms, prevIndex within the log),
when matchTerm(prevIndex, prevTerm) fails maybeAppend returns (0, false)
and changes nothing; when it holds, findConflict locates the first index
whose term disagrees with the log, a non-zero conflict index at or below
committed panics, and otherwise the call succeeds with result
prevIndex + len(ents), appends the non-conflicting suffix of ents to the
unstable tail via truncateAndAppend, and raises committed to
min(leaderCommit, prevIndex + len(ents)) monotonically: the new committed
is max(committed, min(leaderCommit, prevIndex + len(ents))), never a
decrease. -/
theorem c1_maybeAppend_spec (l : raftLog) (index logTerm commitArg : Nat)
    (ents : List Entry) (hwf : wellFormed l)
    (hterm_pos : ∀ e ∈ ents, 0 < e.term)
    (hcontig : ∀ j, (hj : j < ents.length) →
      (ents.get ⟨j, hj⟩).index = index + 1 + j)
    (li : Nat) (hli : l.lastIndex = some li) (hidx : index ≤ li) :
    (l.matchTerm index logTerm = some false →
      l.maybeAppend index logTerm commitArg ents = some (0, false, l))
    ∧ (l.matchTerm index logTerm = some true →
      ∃ ci, l.findConflict ents = some ci
        ∧ (0 < ci → ci ≤ l.committed →
            l.maybeAppend index logTerm commitArg ents = none)
        ∧ ((ci = 0 ∨ l.committed < ci) →
            ∃ l2, l.maybeAppend index logTerm commitArg ents
                = some (index + ents.length, true, l2)
              ∧ l2.committed
                  = max l.committed (min commitArg (index + ents.length))
              ∧ l2.applied = l.applied
              ∧ l2.storage = l.storage
              ∧ (ci = 0 → l2.unstable = l.unstable)
              ∧ (0 < ci →
                  ∃ u2, l.unstable.truncateAndAppend
                      (ents.drop (ci - (index + 1))) = some u2
                    ∧ l2.unstable = u2))) := by
  constructor
  · intro hmt
    simp only [raftLog.maybeAppend, hmt]
  · intro hmt
    obtain ⟨fi, hfi⟩ := raftLog.firstIndex_total l hwf.1
    rcases raftLog.findConflict_first l hwf ents with ⟨hall, hfc⟩ |
      ⟨k, hk, hfc, hmf, hpre⟩
    · refine ⟨0, hfc, ?_, ?_⟩
      · intro h0
        omega
      · intro _
        have hlastle : index + ents.length ≤ li := by
          by_cases hlen0 : ents.length = 0
          · omega
          · have hklt : ents.length - 1 < ents.length := by omega
            have hmem := List.get_mem ents (ents.length - 1) hklt
            have hml := hall _ hmem
            have hp := hterm_pos _ hmem
            have hle := raftLog.matchTerm_true_le l hp hml hfi hli
            have hci := hcontig (ents.length - 1) hklt
            omega
        have hcommit := raftLog.commitTo_le l hli
          (min commitArg (index + ents.length)) (by omega)
        have hmain : l.maybeAppend index logTerm commitArg ents
            = some (index + ents.length, true,
                { l with committed := max l.committed (min commitArg (index + ents.length)) }) := by
          simp only [raftLog.maybeAppend, hmt, hfc, eq_self_iff_true,
            if_true, hcommit]
        exact ⟨_, hmain, rfl, rfl, rfl, fun _ => rfl,
          fun h0 => absurd h0 (by decide)⟩
    · have hcik : (ents.get ⟨k, hk⟩).index = index + 1 + k := hcontig k hk
      refine ⟨(ents.get ⟨k, hk⟩).index, hfc, ?_, ?_⟩
      · intro hpos hle
        simp only [raftLog.maybeAppend, hmt, hfc]
        rw [if_neg (by omega), if_pos hle]
      · intro hor
        have hcig : l.committed < (ents.get ⟨k, hk⟩).index := by
          rcases hor with h0 | h
          · omega
          · exact h
        have hbnd : (ents.get ⟨k, hk⟩).index ≤ li + 1 := by
          cases k with
          | zero => omega
          | succ k0 =>
            have hk0 : k0 < ents.length := by omega
            have hm0 := hpre k0 hk0 (by omega)
            have hp0 := hterm_pos _ (List.get_mem ents k0 hk0)
            have hle0 := raftLog.matchTerm_true_le l hp0 hm0 hfi hli
            have hc0 := hcontig k0 hk0
            omega
        have hoffln := wellFormed_off_len l hwf hli
        have hkk : (ents.get ⟨k, hk⟩).index - (index + 1) = k := by omega
        have hdrop : (ents.drop k).head? = some (ents.get ⟨k, hk⟩) := by
          rw [List.head?_drop, List.getElem?_eq_getElem hk]
          simp [List.get_eq_getElem]
        obtain ⟨l1, happ, hst1, hcm1, hap1, hli1, u2, htaa, hu1⟩ :=
          raftLog.append_spec l (ents.drop k) (ents.get ⟨k, hk⟩) hdrop hcig
            (by omega)
        have hli1m : l1.lastIndex = some (index + ents.length) := by
          rw [hli1]
          congr 1
          rw [List.length_drop]
          omega
        have hcommit := raftLog.commitTo_le l1 hli1m
          (min commitArg (index + ents.length)) (by omega)
        have hmain : l.maybeAppend index logTerm commitArg ents
            = some (index + ents.length, true,
                { l1 with committed := max l1.committed (min commitArg (index + ents.length)) }) := by
          simp only [raftLog.maybeAppend, hmt, hfc]
          rw [if_neg (by omega), if_neg (by omega), if_neg (by omega), hkk]
          simp only [happ, hcommit]
        refine ⟨_, hmain, ?_, ?_, ?_, ?_, ?_⟩
        · simp [hcm1]
        · simp [hap1]
        · simp [hst1]
        · intro h0
          omega
        · intro _
          refine ⟨u2, ?_, ?_⟩
          · rw [hkk]
            exact htaa
          · simp [hu1]


/-- C1 counterexample: maybeAppend does not set committed to
min(leaderCommit, prevIndex + len(ents)). With committed = 2,
matchTerm(2, 1) holding and leaderCommit = 1, the call succeeds and
returns 2, but committed stays 2 while min(1, 2) = 1: commitTo never
lowers the commit index. -/
theorem c1_maybeAppend_cex :
    (raftLog.mk ⟨[⟨0, 0⟩, ⟨1, 1⟩, ⟨2, 1⟩]⟩ ⟨none, [], 3⟩ 2 0).matchTerm 2 1
      = some true
    ∧ (raftLog.mk ⟨[⟨0, 0⟩, ⟨1, 1⟩, ⟨2, 1⟩]⟩ ⟨none, [], 3⟩ 2 0).maybeAppend
        2 1 1 []
      = some (2, true, raftLog.mk ⟨[⟨0, 0⟩, ⟨1, 1⟩, ⟨2, 1⟩]⟩ ⟨none, [], 3⟩ 2 0)
    ∧ (raftLog.mk ⟨[⟨0, 0⟩, ⟨1, 1⟩, ⟨2, 1⟩]⟩ ⟨none, [], 3⟩ 2 0).committed
      ≠ min 1 (2 + ([] : List Entry).length) := by
  decide


/-- Witness for C1 (amended) on a log whose unstable entry at index 2
conflicts with the incoming MsgApp(prevIndex 1, term 1, leaderCommit 3,
entries (2,2),(3,2)). -/
theorem c1_maybeAppend_spec_witness :
    ((raftLog.mk ⟨[⟨0, 0⟩, ⟨1, 1⟩]⟩ ⟨none, [⟨2, 1⟩], 2⟩ 1 0).matchTerm 1 1 = some false →
      (raftLog.mk ⟨[⟨0, 0⟩, ⟨1, 1⟩]⟩ ⟨none, [⟨2, 1⟩], 2⟩ 1 0).maybeAppend 1 1 3 ([⟨2, 2⟩, ⟨3, 2⟩] : List Entry)
        = some (0, false, (raftLog.mk ⟨[⟨0, 0⟩, ⟨1, 1⟩]⟩ ⟨none, [⟨2, 1⟩], 2⟩ 1 0)))
    ∧ ((raftLog.mk ⟨[⟨0, 0⟩, ⟨1, 1⟩]⟩ ⟨none, [⟨2, 1⟩], 2⟩ 1 0).matchTerm 1 1 = some true →
      ∃ ci, (raftLog.mk ⟨[⟨0, 0⟩, ⟨1, 1⟩]⟩ ⟨none, [⟨2, 1⟩], 2⟩ 1 0).findConflict ([⟨2, 2⟩, ⟨3, 2⟩] : List Entry) = some ci
        ∧ (0 < ci → ci ≤ (raftLog.mk ⟨[⟨0, 0⟩, ⟨1, 1⟩]⟩ ⟨none, [⟨2, 1⟩], 2⟩ 1 0).committed →
            (raftLog.mk ⟨[⟨0, 0⟩, ⟨1, 1⟩]⟩ ⟨none, [⟨2, 1⟩], 2⟩ 1 0).maybeAppend 1 1 3 ([⟨2, 2⟩, ⟨3, 2⟩] : List Entry) = none)
        ∧ ((ci = 0 ∨ (raftLog.mk ⟨[⟨0, 0⟩, ⟨1, 1⟩]⟩ ⟨none, [⟨2, 1⟩], 2⟩ 1 0).committed < ci) →
            ∃ l2, (raftLog.mk ⟨[⟨0, 0⟩, ⟨1, 1⟩]⟩ ⟨none, [⟨2, 1⟩], 2⟩ 1 0).maybeAppend 1 1 3 ([⟨2, 2⟩, ⟨3, 2⟩] : List Entry)
                = some (1 + ([⟨2, 2⟩, ⟨3, 2⟩] : List Entry).length, true, l2)
              ∧ l2.committed = max (raftLog.mk ⟨[⟨0, 0⟩, ⟨1, 1⟩]⟩ ⟨none, [⟨2, 1⟩], 2⟩ 1 0).committed (min 3 (1 + ([⟨2, 2⟩, ⟨3, 2⟩] : List Entry).length))
              ∧ l2.applied = (raftLog.mk ⟨[⟨0, 0⟩, ⟨1, 1⟩]⟩ ⟨none, [⟨2, 1⟩], 2⟩ 1 0).applied
              ∧ l2.storage = (raftLog.mk ⟨[⟨0, 0⟩, ⟨1, 1⟩]⟩ ⟨none, [⟨2, 1⟩], 2⟩ 1 0).storage
              ∧ (ci = 0 → l2.unstable = (raftLog.mk ⟨[⟨0, 0⟩, ⟨1, 1⟩]⟩ ⟨none, [⟨2, 1⟩], 2⟩ 1 0).unstable)
              ∧ (0 < ci →
                  ∃ u2, (raftLog.mk ⟨[⟨0, 0⟩, ⟨1, 1⟩]⟩ ⟨none, [⟨2, 1⟩], 2⟩ 1 0).unstable.truncateAndAppend
                      (([⟨2, 2⟩, ⟨3, 2⟩] : List Entry).drop (ci - (1 + 1))) = some u2
                    ∧ l2.unstable = u2))) :=
  c1_maybeAppend_spec (raftLog.mk ⟨[⟨0, 0⟩, ⟨1, 1⟩]⟩ ⟨none, [⟨2, 1⟩], 2⟩ 1 0) 1 1 3 ([⟨2, 2⟩, ⟨3, 2⟩] : List Entry)
    (by
      refine ⟨by decide, ?_, ?_, ?_⟩
      · intro s hs
        simp at hs
      · intro _
        exact ⟨1, rfl, by decide⟩
      · intro h _
        simp at h)
    (by decide) (by decide) 2 rfl (by decide)

end Raft
namespace Raft

theorem commitTo_frame {l l2 : raftLog} {i : Nat} (h : l.commitTo i = some l2) :
    l2.applied = l.applied ∧ l2.storage = l.storage ∧ l2.unstable = l.unstable
    ∧ l.committed ≤ l2.committed
    ∧ (l2.committed = l.committed
        ∨ ∃ li, l.lastIndex = some li ∧ l2.committed ≤ li) := by
  unfold raftLog.commitTo at h
  split at h
  · split at h
    · cases h
    · split at h
      · cases h
      · rename_i li hli hle
        cases h
        refine ⟨rfl, rfl, rfl, ?_, .inr ⟨li, hli, ?_⟩⟩
        · show l.committed ≤ i
          omega
        · show i ≤ li
          omega
  · cases h
    exact ⟨rfl, rfl, rfl, Nat.le_refl _, .inl rfl⟩

theorem appliedTo_frame {l l2 : raftLog} {i : Nat}
    (h : l.appliedTo i = some l2) :
    l2.committed = l.committed ∧ l2.storage = l.storage
    ∧ l2.unstable = l.unstable
    ∧ l.applied ≤ l2.applied
    ∧ (l2.applied = l.applied ∨ l2.applied ≤ l.committed) := by
  unfold raftLog.appliedTo at h
  split at h
  · cases h
    exact ⟨rfl, rfl, rfl, Nat.le_refl _, .inl rfl⟩
  · split at h
    · cases h
    · rename_i hguard
      cases h
      push_neg at hguard
      refine ⟨rfl, rfl, rfl, ?_, .inr ?_⟩
      · show l.applied ≤ i
        omega
      · show i ≤ l.committed
        omega

theorem stableTo_frame {l l2 : raftLog} {i t : Nat}
    (h : l.stableTo i t = some l2) :
    l2.committed = l.committed ∧ l2.applied = l.applied
    ∧ l2.storage = l.storage := by
  unfold raftLog.stableTo at h
  cases hu : l.unstable.stableTo i t with
  | none => rw [hu] at h; cases h
  | some u =>
    rw [hu] at h
    cases h
    exact ⟨rfl, rfl, rfl⟩

theorem append_frame {l l2 : raftLog} {ents : List Entry}
    (h : l.append ents = some l2) :
    l2.committed = l.committed ∧ l2.applied = l.applied
    ∧ l2.storage = l.storage := by
  unfold raftLog.append at h
  split at h
  · cases h
    exact ⟨rfl, rfl, rfl⟩
  · split at h
    · cases h
    · rename_i e0 hh
      by_cases h0 : e0.index = 0
      · rw [if_pos h0] at h
        split at h
        · cases h
        · split at h
          · cases h
          · cases h
            exact ⟨rfl, rfl, rfl⟩
      · rw [if_neg h0] at h
        split at h
        · cases h
        · split at h
          · cases h
          · cases h
            exact ⟨rfl, rfl, rfl⟩


theorem maybeAppend_frame {l l2 : raftLog} {index logTerm c r : Nat}
    {ok : Bool} {ents : List Entry}
    (h : l.maybeAppend index logTerm c ents = some (r, ok, l2)) :
    l2.applied = l.applied ∧ l2.storage = l.storage
    ∧ l.committed ≤ l2.committed := by
  unfold raftLog.maybeAppend at h
  cases hmt : l.matchTerm index logTerm with
  | none =>
    rw [hmt] at h
    cases h
  | some b =>
    simp only [hmt] at h
    cases b with
    | false =>
      cases h
      exact ⟨rfl, rfl, Nat.le_refl _⟩
    | true =>
      cases hfc : l.findConflict ents with
      | none =>
        simp only [hfc] at h
        cases h
      | some ci =>
        simp only [hfc] at h
        by_cases h1 : ci = 0
        · subst h1
          simp only [eq_self_iff_true, if_true] at h
          cases hct : l.commitTo (min c (index + ents.length)) with
          | none =>
            simp only [hct] at h
            cases h
          | some lc =>
            simp only [hct] at h
            cases h
            obtain ⟨ha, hs, _, hc, _⟩ := commitTo_frame hct
            exact ⟨ha, hs, hc⟩
        · rw [if_neg h1] at h
          by_cases h2 : ci ≤ l.committed
          · rw [if_pos h2] at h
            simp only [] at h
            cases h
          · rw [if_neg h2] at h
            by_cases h3 : ci < index + 1 ∨ ents.length < ci - (index + 1)
            · rw [if_pos h3] at h
              simp only [] at h
              cases h
            · rw [if_neg h3] at h
              cases happ : l.append (ents.drop (ci - (index + 1))) with
              | none =>
                simp only [happ] at h
                cases h
              | some l1 =>
                simp only [happ] at h
                cases hct : l1.commitTo (min c (index + ents.length)) with
                | none =>
                  simp only [hct] at h
                  cases h
                | some lc =>
                  simp only [hct] at h
                  cases h
                  obtain ⟨ha3, hs3, _, hc3, _⟩ := commitTo_frame hct
                  obtain ⟨hc1, ha1, hs1⟩ := append_frame happ
                  refine ⟨?_, ?_, ?_⟩
                  · rw [ha3, ha1]
                  · rw [hs3, hs1]
                  · omega

theorem maybeCommit_frame {l l2 : raftLog} {maxIndex t : Nat} {b : Bool}
    (h : l.maybeCommit maxIndex t = some (b, l2)) :
    l2.applied = l.applied ∧ l2.storage = l.storage
    ∧ l2.unstable = l.unstable
    ∧ l.committed ≤ l2.committed
    ∧ (l2.committed = l.committed
        ∨ ∃ li, l.lastIndex = some li ∧ l2.committed ≤ li) := by
  unfold raftLog.maybeCommit at h
  split at h
  · split at h
    · cases h
    · split at h
      · cases hct : l.commitTo maxIndex with
        | none => rw [hct] at h; cases h
        | some lc =>
          rw [hct] at h
          simp only [Option.map_some'] at h
          cases h
          exact commitTo_frame hct
      · cases h
        exact ⟨rfl, rfl, rfl, Nat.le_refl _, .inl rfl⟩
  · cases h
    exact ⟨rfl, rfl, rfl, Nat.le_refl _, .inl rfl⟩

theorem truncateAndAppend_out {u u2 : unstable} {ents : List Entry}
    {e0 : Entry} (hh : ents.head? = some e0)
    (h : u.truncateAndAppend ents = some u2) :
    u2.entries ≠ [] ∧ u2.offset + u2.entries.length = e0.index + ents.length := by
  have hne : ents ≠ [] := by
    intro hx
    rw [hx] at hh
    cases hh
  simp only [unstable.truncateAndAppend, hh] at h
  split at h
  · rename_i h1
    cases h
    refine ⟨by simp [hne], ?_⟩
    simp
    omega
  · split at h
    · rename_i h2
      cases h
      exact ⟨hne, rfl⟩
    · split at h
      · cases h
      · rename_i h1 h2 h3
        cases h
        refine ⟨by simp [hne], ?_⟩
        simp
        rw [min_eq_left (by omega)]
        omega


/-- The committed-vs-lastIndex half of the C2 invariant. -/
def InvB (l : raftLog) : Prop :=
  l.storage.ents ≠ [] ∧ ∃ li, l.lastIndex = some li ∧ l.committed ≤ li

theorem lastIndex_congr {l l2 : raftLog} (hs : l2.storage = l.storage)
    (hu : l2.unstable = l.unstable) : l2.lastIndex = l.lastIndex := by
  unfold raftLog.lastIndex
  rw [hs, hu]

theorem commitTo_invB {l l2 : raftLog} {i : Nat} (h : l.commitTo i = some l2)
    (hinv : InvB l) : InvB l2 := by
  obtain ⟨ha, hs, hu, hc, hd⟩ := commitTo_frame h
  obtain ⟨hne, li, hli, hle⟩ := hinv
  refine ⟨by rw [hs]; exact hne, li, ?_, ?_⟩
  · rw [lastIndex_congr hs hu]
    exact hli
  · rcases hd with hd | ⟨li2, hli2, hle2⟩
    · omega
    · rw [hli] at hli2
      cases hli2
      exact hle2

theorem appliedTo_invB {l l2 : raftLog} {i : Nat}
    (h : l.appliedTo i = some l2) (hinv : InvB l) : InvB l2 := by
  obtain ⟨hc, hs, hu, _, _⟩ := appliedTo_frame h
  obtain ⟨hne, li, hli, hle⟩ := hinv
  refine ⟨by rw [hs]; exact hne, li, ?_, ?_⟩
  · rw [lastIndex_congr hs hu]
    exact hli
  · omega

theorem maybeCommit_invB {l l2 : raftLog} {maxIndex t : Nat} {b : Bool}
    (h : l.maybeCommit maxIndex t = some (b, l2)) (hinv : InvB l) : InvB l2 := by
  obtain ⟨ha, hs, hu, hc, hd⟩ := maybeCommit_frame h
  obtain ⟨hne, li, hli, hle⟩ := hinv
  refine ⟨by rw [hs]; exact hne, li, ?_, ?_⟩
  · rw [lastIndex_congr hs hu]
    exact hli
  · rcases hd with hd | ⟨li2, hli2, hle2⟩
    · omega
    · rw [hli] at hli2
      cases hli2
      exact hle2

theorem restore_invB (l : raftLog) (s : Snapshot) (hne : l.storage.ents ≠ []) :
    InvB (l.restore s) := by
  refine ⟨hne, s.index, ?_, Nat.le_refl _⟩
  rfl

theorem append_invB {l l2 : raftLog} {ents : List Entry}
    (hidx : ∀ e ∈ ents, 1 ≤ e.index)
    (h : l.append ents = some l2) (hinv : InvB l) : InvB l2 := by
  obtain ⟨hne, li, hli, hle⟩ := hinv
  unfold raftLog.append at h
  split at h
  · cases h
    exact ⟨hne, li, hli, hle⟩
  · cases hh : ents.head? with
    | none => rw [hh] at h; cases h
    | some e0 =>
      simp only [hh] at h
      have he0 : 1 ≤ e0.index := hidx e0 (List.mem_of_mem_head? hh)
      rw [if_neg (show ¬ e0.index = 0 by omega)] at h
      split at h
      · cases h
      · rename_i hguard
        cases htaa : l.unstable.truncateAndAppend ents with
        | none => rw [htaa] at h; cases h
        | some u =>
          simp only [htaa] at h
          cases h
          obtain ⟨hune, hulen⟩ := truncateAndAppend_out hh htaa
          have hlen1 : 1 ≤ ents.length := by
            cases ents with
            | nil => cases hh
            | cons a rest => simp
          refine ⟨hne, e0.index + ents.length - 1, ?_, ?_⟩
          · have hml : u.maybeLastIndex
                = some (u.offset + u.entries.length - 1) := by
              unfold unstable.maybeLastIndex
              rw [if_pos (by simpa using hune)]
            show ({ l with unstable := u } : raftLog).lastIndex = _
            unfold raftLog.lastIndex
            simp only [hml]
            rw [hulen]
          · show l.committed ≤ e0.index + ents.length - 1
            omega

theorem maybeAppend_invB {l l2 : raftLog} {index logTerm c r : Nat}
    {ok : Bool} {ents : List Entry}
    (hidx : ∀ e ∈ ents, 1 ≤ e.index)
    (h : l.maybeAppend index logTerm c ents = some (r, ok, l2))
    (hinv : InvB l) : InvB l2 := by
  unfold raftLog.maybeAppend at h
  cases hmt : l.matchTerm index logTerm with
  | none =>
    rw [hmt] at h
    cases h
  | some b =>
    simp only [hmt] at h
    cases b with
    | false =>
      cases h
      exact hinv
    | true =>
      cases hfc : l.findConflict ents with
      | none =>
        simp only [hfc] at h
        cases h
      | some ci =>
        simp only [hfc] at h
        by_cases h1 : ci = 0
        · subst h1
          simp only [eq_self_iff_true, if_true] at h
          cases hct : l.commitTo (min c (index + ents.length)) with
          | none =>
            simp only [hct] at h
            cases h
          | some lc =>
            simp only [hct] at h
            cases h
            exact commitTo_invB hct hinv
        · rw [if_neg h1] at h
          by_cases h2 : ci ≤ l.committed
          · rw [if_pos h2] at h
            simp only [] at h
            cases h
          · rw [if_neg h2] at h
            by_cases h3 : ci < index + 1 ∨ ents.length < ci - (index + 1)
            · rw [if_pos h3] at h
              simp only [] at h
              cases h
            · rw [if_neg h3] at h
              cases happ : l.append (ents.drop (ci - (index + 1))) with
              | none =>
                simp only [happ] at h
                cases h
              | some l1 =>
                simp only [happ] at h
                have hinv1 : InvB l1 :=
                  append_invB (fun e he => hidx e (List.mem_of_mem_drop he))
                    happ hinv
                cases hct : l1.commitTo (min c (index + ents.length)) with
                | none =>
                  simp only [hct] at h
                  cases h
                | some lc =>
                  simp only [hct] at h
                  cases h
                  exact commitTo_invB hct hinv1


/-- One raftLog operation, as the C2 claim lists them, restricted only in
that a restore carries a snapshot at or above the current commit index (the
caller in raft.go ignores stale snapshots). Panicking calls make no step. -/
inductive StepGood : raftLog → raftLog → Prop where
  | append {l l2 : raftLog} {ents : List Entry} :
      l.append ents = some l2 → StepGood l l2
  | maybeAppend {l l2 : raftLog} {index logTerm c r : Nat} {ok : Bool}
      {ents : List Entry} :
      l.maybeAppend index logTerm c ents = some (r, ok, l2) → StepGood l l2
  | commitTo {l l2 : raftLog} {i : Nat} :
      l.commitTo i = some l2 → StepGood l l2
  | appliedTo {l l2 : raftLog} {i : Nat} :
      l.appliedTo i = some l2 → StepGood l l2
  | maybeCommit {l l2 : raftLog} {maxIndex t : Nat} {b : Bool} :
      l.maybeCommit maxIndex t = some (b, l2) → StepGood l l2
  | restore {l : raftLog} {s : Snapshot} :
      l.committed ≤ s.index → StepGood l (l.restore s)
  | stableTo {l l2 : raftLog} {i t : Nat} :
      l.stableTo i t = some l2 → StepGood l l2

/-- The operations under which committed ≤ lastIndex is also preserved:
stableTo is excluded (it can only keep the bound when the stable storage
has already absorbed the stabilised entries, which these operations do not
model), and appended entries carry real raft indices (at least 1; index 0
is the dummy slot, and the Go uint64 wrap of Index - 1 would bypass the
committed guard for it). -/
inductive StepB : raftLog → raftLog → Prop where
  | append {l l2 : raftLog} {ents : List Entry} :
      (∀ e ∈ ents, 1 ≤ e.index) → l.append ents = some l2 → StepB l l2
  | maybeAppend {l l2 : raftLog} {index logTerm c r : Nat} {ok : Bool}
      {ents : List Entry} :
      (∀ e ∈ ents, 1 ≤ e.index) →
      l.maybeAppend index logTerm c ents = some (r, ok, l2) → StepB l l2
  | commitTo {l l2 : raftLog} {i : Nat} :
      l.commitTo i = some l2 → StepB l l2
  | appliedTo {l l2 : raftLog} {i : Nat} :
      l.appliedTo i = some l2 → StepB l l2
  | maybeCommit {l l2 : raftLog} {maxIndex t : Nat} {b : Bool} :
      l.maybeCommit maxIndex t = some (b, l2) → StepB l l2
  | restore {l : raftLog} {s : Snapshot} :
      l.committed ≤ s.index → StepB l (l.restore s)

theorem stepGood_mono {l l2 : raftLog} (h : StepGood l l2) :
    l.applied ≤ l2.applied ∧ l.committed ≤ l2.committed
    ∧ (l.applied ≤ l.committed → l2.applied ≤ l2.committed) := by
  cases h with
  | append h =>
    obtain ⟨hc, ha, _⟩ := append_frame h
    omega
  | maybeAppend h =>
    obtain ⟨ha, _, hc⟩ := maybeAppend_frame h
    omega
  | commitTo h =>
    obtain ⟨ha, _, _, hc, _⟩ := commitTo_frame h
    omega
  | appliedTo h =>
    obtain ⟨hc, _, _, hap, hd⟩ := appliedTo_frame h
    rcases hd with hd | hd <;> omega
  | maybeCommit h =>
    obtain ⟨ha, _, _, hc, _⟩ := maybeCommit_frame h
    omega
  | @restore s hp =>
    simp only [raftLog.restore]
    refine ⟨Nat.le_refl _, hp, ?_⟩
    intro hac
    show l.applied ≤ s.index
    omega
  | stableTo h =>
    obtain ⟨hc, ha, _⟩ := stableTo_frame h
    omega

theorem stepB_good {l l2 : raftLog} (h : StepB l l2) : StepGood l l2 := by
  cases h with
  | append _ h => exact .append h
  | maybeAppend _ h => exact .maybeAppend h
  | commitTo h => exact .commitTo h
  | appliedTo h => exact .appliedTo h
  | maybeCommit h => exact .maybeCommit h
  | restore hp => exact .restore hp

theorem stepB_invB {l l2 : raftLog} (h : StepB l l2) (hinv : InvB l) :
    InvB l2 := by
  cases h with
  | append hidx h => exact append_invB hidx h hinv
  | maybeAppend hidx h => exact maybeAppend_invB hidx h hinv
  | commitTo h => exact commitTo_invB h hinv
  | appliedTo h => exact appliedTo_invB h hinv
  | maybeCommit h => exact maybeCommit_invB h hinv
  | restore hp => exact restore_invB _ _ hinv.1

theorem newLog_spec {ms : MemoryStorage} {l0 : raftLog}
    (hne : ms.ents ≠ []) (h : newLog ms = some l0) :
    l0.applied = l0.committed ∧ InvB l0 := by
  obtain ⟨e0, hh, hfi0, hli0⟩ := storage_head ms hne
  unfold newLog at h
  simp only [hfi0, hli0] at h
  cases h
  have hlen1 : 1 ≤ ms.ents.length := List.length_pos.mpr hne
  refine ⟨rfl, hne, e0.index + ms.ents.length - 1, ?_, ?_⟩
  · show raftLog.lastIndex _ = _
    unfold raftLog.lastIndex unstable.maybeLastIndex
    simp only [List.length_nil]
    rw [if_neg (by simp)]
    exact hli0
  · show e0.index + 1 - 1 ≤ e0.index + ms.ents.length - 1
    omega


/-- C2 counterexample: three operation sequences from a fresh log violate
the claimed invariants. (i) restore with a stale snapshot lowers committed
(monotonicity fails); (ii) append; commitTo; stableTo leaves
committed = 1 > lastIndex = 0, because stableTo drops stabilised entries
from the unstable tail without the stable storage having absorbed them;
(iii) appending an entry with index 0 wraps the Go uint64 guard
ents[0].Index - 1 and drops the whole log below committed. -/
theorem c2_log_invariants_cex :
    ((newLog ⟨[⟨0, 0⟩, ⟨1, 1⟩]⟩).bind (fun l => l.commitTo 1)).map
        (fun l => ((l.restore ⟨0, 0⟩).committed, l.committed)) = some (0, 1)
    ∧ ((((newLog ⟨[⟨0, 0⟩]⟩).bind (fun l => l.append [⟨1, 1⟩])).bind
        (fun l => l.commitTo 1)).bind (fun l => l.stableTo 1 1)).map
        (fun l => (l.lastIndex, l.committed)) = some (some 0, 1)
    ∧ (((newLog ⟨[⟨0, 0⟩, ⟨1, 1⟩]⟩).bind (fun l => l.commitTo 1)).bind
        (fun l => l.append [⟨0, 5⟩])).map
        (fun l => (l.lastIndex, l.committed)) = some (some 0, 1) := by
  decide

/-- C2 amended: over non-panicking raftLog operation sequences in which a
restore only installs a snapshot at or above the current commit index,
applied and committed are monotone non-decreasing and applied ≤ committed
holds in every state reachable from a freshly initialised log; if
additionally stableTo is not used and every appended entry has a real raft
index (at least 1), then committed ≤ lastIndex also holds throughout. -/
theorem c2_log_invariants :
    (∀ l l2 : raftLog, Relation.ReflTransGen StepGood l l2 →
        l.applied ≤ l2.applied ∧ l.committed ≤ l2.committed)
    ∧ (∀ (ms : MemoryStorage) (l0 l : raftLog), ms.ents ≠ [] →
        newLog ms = some l0 → Relation.ReflTransGen StepGood l0 l →
        l.applied ≤ l.committed)
    ∧ (∀ (ms : MemoryStorage) (l0 l : raftLog), ms.ents ≠ [] →
        newLog ms = some l0 → Relation.ReflTransGen StepB l0 l →
        ∃ li, l.lastIndex = some li ∧ l.applied ≤ l.committed
          ∧ l.committed ≤ li) := by
  have mono : ∀ l l2 : raftLog, Relation.ReflTransGen StepGood l l2 →
      l.applied ≤ l2.applied ∧ l.committed ≤ l2.committed
      ∧ (l.applied ≤ l.committed → l2.applied ≤ l2.committed) := by
    intro l l2 h
    induction h with
    | refl => exact ⟨Nat.le_refl _, Nat.le_refl _, fun hx => hx⟩
    | tail hrtg hstep ih =>
      obtain ⟨h1, h2, h3⟩ := stepGood_mono hstep
      exact ⟨Nat.le_trans ih.1 h1, Nat.le_trans ih.2.1 h2,
        fun hx => h3 (ih.2.2 hx)⟩
  have invb : ∀ l l2 : raftLog, Relation.ReflTransGen StepB l l2 →
      InvB l → InvB l2 := by
    intro l l2 h
    induction h with
    | refl => exact fun hx => hx
    | tail hrtg2 hstep ih => exact fun h0 => stepB_invB hstep (ih h0)
  refine ⟨fun l l2 h => ⟨(mono l l2 h).1, (mono l l2 h).2.1⟩, ?_, ?_⟩
  · intro ms l0 l hne hnew h
    obtain ⟨heq, _⟩ := newLog_spec hne hnew
    exact (mono l0 l h).2.2 (Nat.le_of_eq heq)
  · intro ms l0 l hne hnew h
    obtain ⟨heq, hinv⟩ := newLog_spec hne hnew
    obtain ⟨_, li, hli, hle⟩ := invb l0 l h hinv
    have hgood : Relation.ReflTransGen StepGood l0 l :=
      Relation.ReflTransGen.mono (fun _ _ hs => stepB_good hs) h
    exact ⟨li, hli, (mono l0 l hgood).2.2 (Nat.le_of_eq heq), hle⟩

theorem c2_log_invariants_witness :
    ∃ li, (raftLog.mk (MemoryStorage.mk [Entry.mk 0 0, Entry.mk 1 1])
        (unstable.mk none [] 2) 1 0).lastIndex = some li
      ∧ (raftLog.mk (MemoryStorage.mk [Entry.mk 0 0, Entry.mk 1 1])
        (unstable.mk none [] 2) 1 0).applied
        ≤ (raftLog.mk (MemoryStorage.mk [Entry.mk 0 0, Entry.mk 1 1])
        (unstable.mk none [] 2) 1 0).committed
      ∧ (raftLog.mk (MemoryStorage.mk [Entry.mk 0 0, Entry.mk 1 1])
        (unstable.mk none [] 2) 1 0).committed ≤ li :=
  c2_log_invariants.2.2 (MemoryStorage.mk [Entry.mk 0 0, Entry.mk 1 1])
    (raftLog.mk (MemoryStorage.mk [Entry.mk 0 0, Entry.mk 1 1])
      (unstable.mk none [] 2) 0 0)
    (raftLog.mk (MemoryStorage.mk [Entry.mk 0 0, Entry.mk 1 1])
      (unstable.mk none [] 2) 1 0)
    (by decide) (by decide)
    (Relation.ReflTransGen.single
      (@StepB.commitTo
        (raftLog.mk (MemoryStorage.mk [Entry.mk 0 0, Entry.mk 1 1])
          (unstable.mk none [] 2) 0 0)
        (raftLog.mk (MemoryStorage.mk [Entry.mk 0 0, Entry.mk 1 1])
          (unstable.mk none [] 2) 1 0)
        1 (by decide)))

end Raft

namespace Mvcc

/-- The available map of compact, modelled as a duplicate-free list. -/
def insertRev (avail : List revision) (r : revision) : List revision :=
  if r ∈ avail then avail else avail ++ [r]

def eraseRev (avail : List revision) (r : revision) : List revision :=
  avail.filter (fun x => x ≠ r)

/-- The generation-scanning loop of keyIndex.doCompact: advance while the
current generation is not the last one and its tombstone (last revision)
is at most atRev; none is the Go panic indexing revs[-1] of an empty
non-last generation. -/
def doCompactLoop (atRev : Int) : List generation → Option Nat
| [] => some 0
| [_] => some 0
| g :: g2 :: rest =>
  if g.revs.length = 0 then none
  else if atRev < (g.revs.getLastD zeroRev).main then some 0
  else (doCompactLoop atRev (g2 :: rest)).map (fun j => j + 1)

/-- keyIndex.doCompact: the stop generation index, the walk stop position
(none is the Go -1) and the available map after the walk closure added the
revision it stopped at. none is the Go panic on an empty generations
slice or inside the loop. -/
def keyIndex.doCompact (ki : keyIndex) (atRev : Int) (avail : List revision) :
    Option (Nat × Option Nat × List revision) :=
  if ki.generations.length = 0 then none
  else
    match doCompactLoop atRev ki.generations with
    | none => none
    | some genIdx =>
      let g := ki.generations.getD genIdx zeroGen
      match walkLE g.revs atRev with
      | some p => some (genIdx, some p, insertRev avail (g.revs.getD p zeroRev))
      | none => some (genIdx, none, avail)

/-- keyIndex.compact. none is the Go panic (empty keyIndex, or one
propagated from doCompact); otherwise the compacted keyIndex together
with the updated available map. -/
def keyIndex.compact (ki : keyIndex) (atRev : Int) (avail : List revision) :
    Option (keyIndex × List revision) :=
  if ki.isEmpty then none
  else
    match ki.doCompact atRev avail with
    | none => none
    | some (genIdx, revIndex, avail2) =>
      let g := ki.generations.getD genIdx zeroGen
      if g.isEmpty then
        some ({ ki with generations := ki.generations.drop genIdx }, avail2)
      else
        let g2 := match revIndex with
          | some p => { g with revs := g.revs.drop p }
          | none => g
        if g2.revs.length = 1 ∧ genIdx ≠ ki.generations.length - 1 then
          some ({ ki with generations :=
            (ki.generations.set genIdx g2).drop (genIdx + 1) },
            eraseRev avail2 (g2.revs.getD 0 zeroRev))
        else
          some ({ ki with generations :=
            (ki.generations.set genIdx g2).drop genIdx }, avail2)

/-- The well-formedness compact needs: at least one generation, and every
generation other than the last (each closed by a tombstone) holds at least
two revisions. put and tombstone only build such keyIndexes. -/
def keyIndex.compactWF (ki : keyIndex) : Prop :=
  ki.generations ≠ [] ∧
  ∀ j < ki.generations.length - 1,
    2 ≤ (ki.generations.getD j zeroGen).revs.length


theorem getD_drop {α : Type} (d : α) (l : List α) (m n : Nat) :
    (l.drop m).getD n d = l.getD (m + n) d := by
  simp [List.getD_eq_getElem?_getD, List.getElem?_drop]

theorem lastD_drop (l : List revision) (p : Nat) (hp : p < l.length) :
    (l.drop p).getLastD zeroRev = l.getLastD zeroRev := by
  rw [List.getLastD_eq_getLast?, List.getLastD_eq_getLast?,
    List.getLast?_eq_getElem?, List.getLast?_eq_getElem?,
    List.length_drop, List.getElem?_drop]
  have h : p + (l.length - p - 1) = l.length - 1 := by omega
  rw [h]

theorem lastD_eq_getD {α : Type} (d : α) (l : List α) :
    l.getLastD d = l.getD (l.length - 1) d := by
  rw [List.getLastD_eq_getLast?, List.getLast?_eq_getElem?,
    List.getD_eq_getElem?_getD]

theorem drop_eq_getD_cons {α : Type} (d : α) (l : List α) (j : Nat)
    (hj : j < l.length) :
    l.drop j = l.getD j d :: l.drop (j + 1) := by
  rw [List.drop_eq_getElem_cons hj, List.getD_eq_getElem?_getD,
    List.getElem?_eq_getElem hj]
  rfl

theorem set_drop_eq_cons {α : Type} (a : α) :
    ∀ (j : Nat) (l : List α), j < l.length →
      (l.set j a).drop j = a :: l.drop (j + 1)
| 0, x :: t, _ => by simp
| j + 1, x :: t, h => by
  have ih := set_drop_eq_cons a j t (by simpa using h)
  simpa [List.drop_succ_cons] using ih

theorem insertRev_insertRev (a : List revision) (x : revision) :
    insertRev (insertRev a x) x = insertRev a x := by
  by_cases hx : x ∈ a <;> simp [insertRev, hx]

theorem walkLE_lt_length : ∀ (l : List revision) (r : Int) (p : Nat),
    walkLE l r = some p → p < l.length
| [], r, p => by intro h; simp [walkLE] at h
| x :: t, r, p => by
  intro h
  unfold walkLE at h
  cases ht : walkLE t r with
  | some q =>
    simp only [ht] at h
    cases h
    have := walkLE_lt_length t r q ht
    simp only [List.length_cons]
    omega
  | none =>
    simp only [ht] at h
    by_cases hx : x.main ≤ r
    · rw [if_pos hx] at h; cases h; simp
    · rw [if_neg hx] at h; cases h

theorem walkLE_getD_le : ∀ (l : List revision) (r : Int) (p : Nat),
    walkLE l r = some p → (l.getD p zeroRev).main ≤ r
| [], r, p => by intro h; simp [walkLE] at h
| x :: t, r, p => by
  intro h
  unfold walkLE at h
  cases ht : walkLE t r with
  | some q =>
    simp only [ht] at h
    cases h
    simpa [List.getD_cons_succ] using walkLE_getD_le t r q ht
  | none =>
    simp only [ht] at h
    by_cases hx : x.main ≤ r
    · rw [if_pos hx] at h; cases h; simpa [List.getD_cons_zero] using hx
    · rw [if_neg hx] at h; cases h

theorem walkLE_none_gt : ∀ (l : List revision) (r : Int),
    walkLE l r = none → ∀ q, q < l.length → r < (l.getD q zeroRev).main
| [], r => by intro _ q hq; simp at hq
| x :: t, r => by
  intro h q hq
  unfold walkLE at h
  cases ht : walkLE t r with
  | some q2 => simp only [ht] at h; cases h
  | none =>
    simp only [ht] at h
    by_cases hx : x.main ≤ r
    · rw [if_pos hx] at h; cases h
    · rw [if_neg hx] at h
      cases q with
      | zero => simpa [List.getD_cons_zero] using by omega
      | succ q2 =>
        have := walkLE_none_gt t r ht q2 (by simp at hq; omega)
        simpa [List.getD_cons_succ] using this

theorem walkLE_none_of_gt : ∀ (l : List revision) (r : Int),
    (∀ q, q < l.length → r < (l.getD q zeroRev).main) → walkLE l r = none
| [], r => by intro _; rfl
| x :: t, r => by
  intro h
  unfold walkLE
  have ht : walkLE t r = none := by
    refine walkLE_none_of_gt t r (fun q hq => ?_)
    have := h (q + 1) (by simp; omega)
    simpa [List.getD_cons_succ] using this
  rw [ht]
  have h0 := h 0 (by simp)
  rw [List.getD_cons_zero] at h0
  rw [if_neg (by omega)]

theorem walkLE_drop_none (l : List revision) (r : Int) (k : Nat)
    (h : walkLE l r = none) : walkLE (l.drop k) r = none := by
  refine walkLE_none_of_gt _ _ (fun q hq => ?_)
  rw [getD_drop]
  exact walkLE_none_gt l r h (k + q) (by rw [List.length_drop] at hq; omega)

theorem walkLE_drop_sub : ∀ (k : Nat) (l : List revision) (r : Int) (p : Nat),
    walkLE l r = some p → k ≤ p → walkLE (l.drop k) r = some (p - k)
| 0, l, r, p => by intro h _; simpa using h
| k + 1, [], r, p => by intro h _; simp [walkLE] at h
| k + 1, x :: t, r, p => by
  intro h hk
  unfold walkLE at h
  cases ht : walkLE t r with
  | some q =>
    simp only [ht] at h
    cases h
    have := walkLE_drop_sub k t r q ht (by omega)
    simpa [List.drop_succ_cons, Nat.succ_sub_succ] using this
  | none =>
    simp only [ht] at h
    by_cases hx : x.main ≤ r
    · rw [if_pos hx] at h; cases h; omega
    · rw [if_neg hx] at h; cases h

theorem walkLE_mono : ∀ (l : List revision) (r1 r2 : Int) (p1 : Nat),
    r1 ≤ r2 → walkLE l r1 = some p1 →
    ∃ p2, walkLE l r2 = some p2 ∧ p1 ≤ p2
| [], r1, r2, p1 => by intro _ h; simp [walkLE] at h
| x :: t, r1, r2, p1 => by
  intro hr h
  unfold walkLE at h
  cases ht : walkLE t r1 with
  | some q =>
    simp only [ht] at h
    cases h
    obtain ⟨q2, hq2, hle⟩ := walkLE_mono t r1 r2 q hr ht
    refine ⟨q2 + 1, ?_, by omega⟩
    unfold walkLE
    simp only [hq2]
  | none =>
    simp only [ht] at h
    by_cases hx : x.main ≤ r1
    · rw [if_pos hx] at h
      cases h
      cases ht2 : walkLE t r2 with
      | some q2 =>
        refine ⟨q2 + 1, ?_, by omega⟩
        unfold walkLE
        simp only [ht2]
      | none =>
        refine ⟨0, ?_, Nat.le_refl 0⟩
        unfold walkLE
        simp only [ht2]
        rw [if_pos (le_trans hx hr)]
    · rw [if_neg hx] at h; cases h

theorem walkLE_stop_lt_last (l : List revision) (r : Int) (p : Nat)
    (hw : walkLE l r = some p) (hlast : r < (l.getLastD zeroRev).main) :
    p + 2 ≤ l.length := by
  have hp := walkLE_lt_length l r p hw
  have hple := walkLE_getD_le l r p hw
  rw [lastD_eq_getD] at hlast
  by_contra hc
  have he : p = l.length - 1 := by omega
  rw [he] at hple
  omega


theorem doCompactLoop_some : ∀ (gens : List generation) (r : Int),
    gens ≠ [] →
    (∀ j, j < gens.length - 1 → 2 ≤ (gens.getD j zeroGen).revs.length) →
    ∃ i, doCompactLoop r gens = some i ∧ i < gens.length
| [], _, h, _ => absurd rfl h
| [g], r, _, _ => ⟨0, rfl, by simp⟩
| g :: g2 :: rest, r, _, hwf => by
  have hg : 2 ≤ g.revs.length := by
    have := hwf 0 (by simp only [List.length_cons]; omega)
    simpa using this
  unfold doCompactLoop
  rw [if_neg (by omega)]
  by_cases hlt : r < (g.revs.getLastD zeroRev).main
  · rw [if_pos hlt]
    exact ⟨0, rfl, by simp⟩
  · rw [if_neg hlt]
    obtain ⟨i, hi, hlen⟩ := doCompactLoop_some (g2 :: rest) r (by simp)
      (fun j hj => by
        have := hwf (j + 1) (by simp only [List.length_cons] at hj ⊢; omega)
        simpa [List.getD_cons_succ] using this)
    refine ⟨i + 1, ?_, by simp only [List.length_cons] at hlen ⊢; omega⟩
    rw [hi]
    rfl

theorem doCompactLoop_stop_lt : ∀ (gens : List generation) (r : Int) (i : Nat),
    doCompactLoop r gens = some i → i + 1 < gens.length →
    r < ((gens.getD i zeroGen).revs.getLastD zeroRev).main
| [], r, i => by intro _ hlt; simp at hlt
| [g], r, i => by
  intro h hlt
  have hi : i = 0 := by simpa [doCompactLoop] using h.symm
  subst hi
  simp at hlt
| g :: g2 :: rest, r, i => by
  intro h hlt
  unfold doCompactLoop at h
  by_cases h0 : g.revs.length = 0
  · rw [if_pos h0] at h; cases h
  · rw [if_neg h0] at h
    by_cases hltg : r < (g.revs.getLastD zeroRev).main
    · rw [if_pos hltg] at h
      cases h
      simpa [List.getD_cons_zero] using hltg
    · rw [if_neg hltg] at h
      cases hrec : doCompactLoop r (g2 :: rest) with
      | none => rw [hrec] at h; cases h
      | some i2 =>
        rw [hrec] at h
        simp only [Option.map_some'] at h
        cases h
        have := doCompactLoop_stop_lt (g2 :: rest) r i2 hrec
          (by simp only [List.length_cons] at hlt ⊢; omega)
        simpa [List.getD_cons_succ] using this

theorem doCompactLoop_head_zero (g : generation) (t : List generation)
    (r : Int) (hg : g.revs.length ≠ 0)
    (hlt : r < (g.revs.getLastD zeroRev).main) :
    doCompactLoop r (g :: t) = some 0 := by
  cases t with
  | nil => rfl
  | cons g2 rest =>
    unfold doCompactLoop
    rw [if_neg hg, if_pos hlt]

theorem doCompactLoop_congr_head (g g2 : generation) (t : List generation)
    (r : Int) (hg : g.revs.length ≠ 0) (hg2 : g2.revs.length ≠ 0)
    (hl : (g.revs.getLastD zeroRev).main = (g2.revs.getLastD zeroRev).main) :
    doCompactLoop r (g :: t) = doCompactLoop r (g2 :: t) := by
  cases t with
  | nil => rfl
  | cons g3 rest =>
    unfold doCompactLoop
    rw [if_neg hg, if_neg hg2, hl]

theorem doCompactLoop_mono_drop :
    ∀ (gens : List generation) (r1 r2 : Int) (i1 i2 : Nat),
    r1 ≤ r2 → doCompactLoop r1 gens = some i1 →
    doCompactLoop r2 gens = some i2 →
    i1 ≤ i2 ∧ doCompactLoop r2 (gens.drop i1) = some (i2 - i1)
| [], r1, r2, i1, i2 => by
  intro _ h1 h2
  have e1 : i1 = 0 := by simpa [doCompactLoop] using h1.symm
  have e2 : i2 = 0 := by simpa [doCompactLoop] using h2.symm
  subst e1; subst e2
  exact ⟨Nat.le_refl 0, by simp [doCompactLoop]⟩
| [g], r1, r2, i1, i2 => by
  intro _ h1 h2
  have e1 : i1 = 0 := by simpa [doCompactLoop] using h1.symm
  have e2 : i2 = 0 := by simpa [doCompactLoop] using h2.symm
  subst e1; subst e2
  exact ⟨Nat.le_refl 0, by simp [doCompactLoop]⟩
| g :: g2 :: rest, r1, r2, i1, i2 => by
  intro hr h1 h2
  unfold doCompactLoop at h1 h2
  by_cases h0 : g.revs.length = 0
  · rw [if_pos h0] at h1; cases h1
  · rw [if_neg h0] at h1 h2
    by_cases hlt1 : r1 < (g.revs.getLastD zeroRev).main
    · rw [if_pos hlt1] at h1
      cases h1
      refine ⟨Nat.zero_le _, ?_⟩
      rw [List.drop_zero, Nat.sub_zero]
      unfold doCompactLoop
      rw [if_neg h0]
      exact h2
    · rw [if_neg hlt1] at h1
      have hlt2 : ¬ r2 < (g.revs.getLastD zeroRev).main := by omega
      rw [if_neg hlt2] at h2
      cases hr1 : doCompactLoop r1 (g2 :: rest) with
      | none => rw [hr1] at h1; cases h1
      | some j1 =>
        cases hr2 : doCompactLoop r2 (g2 :: rest) with
        | none => rw [hr2] at h2; cases h2
        | some j2 =>
          rw [hr1] at h1; rw [hr2] at h2
          simp only [Option.map_some'] at h1 h2
          cases h1; cases h2
          obtain ⟨hle, hdrop⟩ :=
            doCompactLoop_mono_drop (g2 :: rest) r1 r2 j1 j2 hr hr1 hr2
          refine ⟨by omega, ?_⟩
          rw [List.drop_succ_cons]
          simpa [Nat.succ_sub_succ] using hdrop


theorem doCompact_eval_none (ki : keyIndex) (r : Int) (avail : List revision)
    (j : Nat) (hlen : ki.generations.length ≠ 0)
    (hj : doCompactLoop r ki.generations = some j)
    (hw : walkLE (ki.generations.getD j zeroGen).revs r = none) :
    ki.doCompact r avail = some (j, none, avail) := by
  unfold keyIndex.doCompact
  rw [if_neg hlen]
  simp only [hj, hw]

theorem doCompact_eval_some (ki : keyIndex) (r : Int) (avail : List revision)
    (j p : Nat) (hlen : ki.generations.length ≠ 0)
    (hj : doCompactLoop r ki.generations = some j)
    (hw : walkLE (ki.generations.getD j zeroGen).revs r = some p) :
    ki.doCompact r avail = some (j, some p,
      insertRev avail ((ki.generations.getD j zeroGen).revs.getD p zeroRev)) := by
  unfold keyIndex.doCompact
  rw [if_neg hlen]
  simp only [hj, hw]

/-- The one-call characterisation of compact on a well-formed non-empty
keyIndex: the loop stops at a generation index j; if the walk finds no
revision at most atRev the generations before j are dropped and nothing
else changes, otherwise the stop generation is additionally trimmed to the
walk position and that revision is added to the available map. The Go
branch that drops a lone-tombstone generation is unreachable here: a
non-last stop generation ends in a tombstone above atRev and keeps at
least two revisions. -/
theorem compact_shape (ki : keyIndex) (r : Int) (avail : List revision)
    (hwf : ki.compactWF) (hne : ki.isEmpty = false) :
    ∃ j, doCompactLoop r ki.generations = some j ∧
      j < ki.generations.length ∧
      ((walkLE (ki.generations.getD j zeroGen).revs r = none ∧
          ki.compact r avail
            = some ({ ki with generations := ki.generations.drop j }, avail))
       ∨ (∃ p, walkLE (ki.generations.getD j zeroGen).revs r = some p ∧
          ki.compact r avail = some ({ ki with generations :=
            ({ ki.generations.getD j zeroGen with
              revs := (ki.generations.getD j zeroGen).revs.drop p }
              :: ki.generations.drop (j + 1)) },
            insertRev avail
              ((ki.generations.getD j zeroGen).revs.getD p zeroRev)))) := by
  obtain ⟨hne0, hwf2⟩ := hwf
  have hlen : ki.generations.length ≠ 0 := by
    simpa [List.length_eq_zero] using hne0
  obtain ⟨j, hj, hjlen⟩ := doCompactLoop_some ki.generations r hne0 hwf2
  refine ⟨j, hj, hjlen, ?_⟩
  cases hw : walkLE (ki.generations.getD j zeroGen).revs r with
  | none =>
    left
    refine ⟨rfl, ?_⟩
    unfold keyIndex.compact
    rw [if_neg (by simp [hne])]
    simp only [doCompact_eval_none ki r avail j hlen hj hw]
    by_cases hge : (ki.generations.getD j zeroGen).isEmpty
    · rw [if_pos hge]
    · rw [if_neg hge]
      have hB1 : ¬((ki.generations.getD j zeroGen).revs.length = 1
          ∧ j ≠ ki.generations.length - 1) := by
        rintro ⟨h1len, hjne⟩
        have := hwf2 j (by omega)
        omega
      rw [if_neg hB1]
      rw [set_drop_eq_cons _ j _ hjlen,
        ← drop_eq_getD_cons zeroGen _ j hjlen]
  | some p =>
    right
    refine ⟨p, rfl, ?_⟩
    unfold keyIndex.compact
    rw [if_neg (by simp [hne])]
    simp only [doCompact_eval_some ki r avail j p hlen hj hw]
    have hplen := walkLE_lt_length _ r p hw
    have hgne : ¬ (ki.generations.getD j zeroGen).isEmpty = true := by
      intro hc
      unfold generation.isEmpty at hc
      rw [List.isEmpty_iff] at hc
      rw [hc] at hplen
      simp at hplen
    rw [if_neg hgne]
    have hB1 : ¬(((ki.generations.getD j zeroGen).revs.drop p).length = 1
        ∧ j ≠ ki.generations.length - 1) := by
      rintro ⟨hlen1, hjne⟩
      have hjlt : j + 1 < ki.generations.length := by omega
      have hstop := doCompactLoop_stop_lt _ r j hj hjlt
      have h2 := walkLE_stop_lt_last _ r p hw hstop
      rw [List.length_drop] at hlen1
      omega
    rw [if_neg hB1]
    rw [set_drop_eq_cons _ j _ hjlen]


theorem compact_wf_preserved (ki ki1 : keyIndex) (r : Int)
    (avail avail1 : List revision) (hwf : ki.compactWF)
    (hne : ki.isEmpty = false)
    (h : ki.compact r avail = some (ki1, avail1)) : ki1.compactWF := by
  obtain ⟨j, hj, hjlen, hcase⟩ := compact_shape ki r avail hwf hne
  obtain ⟨hne0, hwf2⟩ := hwf
  rcases hcase with ⟨hw, heq⟩ | ⟨p, hw, heq⟩
  · rw [heq] at h
    simp only [Option.some.injEq, Prod.mk.injEq] at h
    obtain ⟨hk1, ha1⟩ := h
    subst hk1
    unfold keyIndex.compactWF
    dsimp only
    constructor
    · intro hc
      rw [List.drop_eq_nil_iff_le] at hc
      omega
    · intro j2 hj2
      rw [List.length_drop] at hj2
      rw [getD_drop]
      exact hwf2 (j + j2) (by omega)
  · rw [heq] at h
    simp only [Option.some.injEq, Prod.mk.injEq] at h
    obtain ⟨hk1, ha1⟩ := h
    subst hk1
    unfold keyIndex.compactWF
    dsimp only
    constructor
    · exact List.cons_ne_nil _ _
    · intro j2 hj2
      simp only [List.length_cons, List.length_drop] at hj2
      cases j2 with
      | zero =>
        rw [List.getD_cons_zero]
        dsimp only
        rw [List.length_drop]
        have hjlt : j + 1 < ki.generations.length := by omega
        have hstop := doCompactLoop_stop_lt _ r j hj hjlt
        have h2le := walkLE_stop_lt_last _ r p hw hstop
        omega
      | succ j3 =>
        rw [List.getD_cons_succ, getD_drop]
        exact hwf2 (j + 1 + j3) (by omega)


theorem compact_ne_of_some (ki ki1 : keyIndex) (r : Int)
    (avail avail1 : List revision)
    (h : ki.compact r avail = some (ki1, avail1)) : ki.isEmpty = false := by
  by_contra hc
  have ht : ki.isEmpty = true := by
    cases he : ki.isEmpty
    · exact absurd he hc
    · rfl
  unfold keyIndex.compact at h
  rw [if_pos ht] at h
  cases h

theorem compact_idem (ki ki1 : keyIndex) (r : Int)
    (avail avail1 : List revision) (hwf : ki.compactWF)
    (h1 : ki.compact r avail = some (ki1, avail1))
    (hne1 : ki1.isEmpty = false) :
    ki1.compact r avail1 = some (ki1, avail1) := by
  have hne := compact_ne_of_some ki ki1 r avail avail1 h1
  have hwf1 := compact_wf_preserved ki ki1 r avail avail1 hwf hne h1
  obtain ⟨j, hj, hjlen, hcase⟩ := compact_shape ki r avail hwf hne
  obtain ⟨hne0, hwf2⟩ := hwf
  obtain ⟨j2, hj2, hj2len, hcase2⟩ := compact_shape ki1 r avail1 hwf1 hne1
  rcases hcase with ⟨hw, heq⟩ | ⟨p, hw, heq⟩
  · rw [heq] at h1
    simp only [Option.some.injEq, Prod.mk.injEq] at h1
    obtain ⟨hk1, ha1⟩ := h1
    subst hk1
    subst ha1
    have hloop : doCompactLoop r (ki.generations.drop j) = some 0 := by
      have := doCompactLoop_mono_drop ki.generations r r j j (le_refl r) hj hj
      simpa using this.2
    have hj2e : doCompactLoop r (ki.generations.drop j) = some j2 := hj2
    rw [hloop] at hj2e
    cases hj2e
    have hgd : (ki.generations.drop j).getD 0 zeroGen
        = ki.generations.getD j zeroGen := by
      rw [getD_drop, Nat.add_zero]
    rcases hcase2 with ⟨hw2, heq2⟩ | ⟨p2, hw2, heq2⟩
    · exact heq2
    · have hw2e : walkLE ((ki.generations.drop j).getD 0 zeroGen).revs r
          = some p2 := hw2
      rw [hgd, hw] at hw2e
      cases hw2e
  · rw [heq] at h1
    simp only [Option.some.injEq, Prod.mk.injEq] at h1
    obtain ⟨hk1, ha1⟩ := h1
    subst hk1
    subst ha1
    have hplen := walkLE_lt_length _ r p hw
    have hgne : (ki.generations.getD j zeroGen).revs.length ≠ 0 := by omega
    have htne : ((ki.generations.getD j zeroGen).revs.drop p).length ≠ 0 := by
      rw [List.length_drop]; omega
    have hlast : ((({ ki.generations.getD j zeroGen with
        revs := (ki.generations.getD j zeroGen).revs.drop p })
          : generation).revs.getLastD zeroRev).main
        = (((ki.generations.getD j zeroGen) : generation).revs.getLastD
            zeroRev).main := by
      dsimp only
      rw [lastD_drop _ p hplen]
    have hloop : doCompactLoop r
        (({ ki.generations.getD j zeroGen with
          revs := (ki.generations.getD j zeroGen).revs.drop p })
          :: ki.generations.drop (j + 1)) = some 0 := by
      rw [doCompactLoop_congr_head _ (ki.generations.getD j zeroGen) _ r
        htne hgne hlast,
        ← drop_eq_getD_cons zeroGen _ j hjlen]
      have := doCompactLoop_mono_drop ki.generations r r j j (le_refl r) hj hj
      simpa using this.2
    have hj2e : doCompactLoop r
        (({ ki.generations.getD j zeroGen with
          revs := (ki.generations.getD j zeroGen).revs.drop p })
          :: ki.generations.drop (j + 1)) = some j2 := hj2
    rw [hloop] at hj2e
    cases hj2e
    have hw0 : walkLE ((ki.generations.getD j zeroGen).revs.drop p) r
        = some 0 := by
      have := walkLE_drop_sub p _ r p hw (Nat.le_refl p)
      simpa using this
    rcases hcase2 with ⟨hw2, heq2⟩ | ⟨p2, hw2, heq2⟩
    · have hw2e : walkLE ((ki.generations.getD j zeroGen).revs.drop p) r
          = none := hw2
      rw [hw0] at hw2e
      cases hw2e
    · have hw2e : walkLE ((ki.generations.getD j zeroGen).revs.drop p) r
          = some p2 := hw2
      rw [hw0] at hw2e
      cases hw2e
      have hgd0 : ((ki.generations.getD j zeroGen).revs.drop p).getD 0 zeroRev
          = (ki.generations.getD j zeroGen).revs.getD p zeroRev := by
        rw [getD_drop, Nat.add_zero]
      refine heq2.trans ?_
      simp only [Option.some.injEq, Prod.mk.injEq]
      constructor
      · rfl
      · show insertRev
            (insertRev avail ((ki.generations.getD j zeroGen).revs.getD p
              zeroRev))
            (((ki.generations.getD j zeroGen).revs.drop p).getD 0 zeroRev)
          = _
        rw [hgd0]
        exact insertRev_insertRev _ _


theorem compact_comp (ki ki1 : keyIndex) (r1 r2 : Int)
    (avail avail1 : List revision) (hwf : ki.compactWF) (hr : r1 ≤ r2)
    (h1 : ki.compact r1 avail = some (ki1, avail1))
    (hne1 : ki1.isEmpty = false) :
    ∃ ki2 a2 a2b, ki1.compact r2 avail1 = some (ki2, a2)
      ∧ ki.compact r2 avail = some (ki2, a2b) := by
  have hne := compact_ne_of_some ki ki1 r1 avail avail1 h1
  have hwf1 := compact_wf_preserved ki ki1 r1 avail avail1 hwf hne h1
  obtain ⟨j1, hj1, hj1len, hcase1⟩ := compact_shape ki r1 avail hwf hne
  obtain ⟨jd, hjd, hjdlen, hcased⟩ := compact_shape ki r2 avail hwf hne
  obtain ⟨hne0, hwf2⟩ := hwf
  obtain ⟨hj1le, hdrop⟩ :=
    doCompactLoop_mono_drop ki.generations r1 r2 j1 jd hr hj1 hjd
  obtain ⟨j2, hj2, hj2len, hcase2⟩ := compact_shape ki1 r2 avail1 hwf1 hne1
  rcases hcase1 with ⟨hw1, heq1⟩ | ⟨p1, hw1, heq1⟩
  · -- first compact only dropped generations before j1
    rw [heq1] at h1
    simp only [Option.some.injEq, Prod.mk.injEq] at h1
    obtain ⟨hk1, ha1⟩ := h1
    subst hk1
    subst ha1
    have hj2e : doCompactLoop r2 (ki.generations.drop j1) = some j2 := hj2
    rw [hdrop] at hj2e
    cases hj2e
    have hgd : (ki.generations.drop j1).getD (jd - j1) zeroGen
        = ki.generations.getD jd zeroGen := by
      rw [getD_drop]
      have he : j1 + (jd - j1) = jd := by omega
      rw [he]
    rcases hcased with ⟨hwd, heqd⟩ | ⟨pd, hwd, heqd⟩
    · rcases hcase2 with ⟨hw2, heq2⟩ | ⟨p2, hw2, heq2⟩
      · have hdd : (ki.generations.drop j1).drop (jd - j1)
            = ki.generations.drop jd := by
          rw [List.drop_drop]
          have he : j1 + (jd - j1) = jd := by omega
          rw [he]
        dsimp only at heq2
        rw [hdd] at heq2
        exact ⟨_, _, _, heq2, heqd⟩
      · have hw2e : walkLE ((ki.generations.drop j1).getD (jd - j1)
            zeroGen).revs r2 = some p2 := hw2
        rw [hgd, hwd] at hw2e
        cases hw2e
    · rcases hcase2 with ⟨hw2, heq2⟩ | ⟨p2, hw2, heq2⟩
      · have hw2e : walkLE ((ki.generations.drop j1).getD (jd - j1)
            zeroGen).revs r2 = none := hw2
        rw [hgd, hwd] at hw2e
        cases hw2e
      · have hw2e : walkLE ((ki.generations.drop j1).getD (jd - j1)
            zeroGen).revs r2 = some p2 := hw2
        rw [hgd, hwd] at hw2e
        cases hw2e
        have hdd : (ki.generations.drop j1).drop (jd - j1 + 1)
            = ki.generations.drop (jd + 1) := by
          rw [List.drop_drop]
          have he : j1 + (jd - j1 + 1) = jd + 1 := by omega
          rw [he]
        dsimp only at heq2
        rw [hgd, hdd] at heq2
        exact ⟨_, _, _, heq2, heqd⟩
  · -- first compact trimmed the stop generation at p1
    rw [heq1] at h1
    simp only [Option.some.injEq, Prod.mk.injEq] at h1
    obtain ⟨hk1, ha1⟩ := h1
    subst hk1
    subst ha1
    have hp1len := walkLE_lt_length _ r1 p1 hw1
    have hgne : (ki.generations.getD j1 zeroGen).revs.length ≠ 0 := by omega
    have htne : ((ki.generations.getD j1 zeroGen).revs.drop p1).length
        ≠ 0 := by
      rw [List.length_drop]; omega
    have hlast : ((({ ki.generations.getD j1 zeroGen with
        revs := (ki.generations.getD j1 zeroGen).revs.drop p1 })
          : generation).revs.getLastD zeroRev).main
        = (((ki.generations.getD j1 zeroGen) : generation).revs.getLastD
            zeroRev).main := by
      dsimp only
      rw [lastD_drop _ p1 hp1len]
    have hloop2 : doCompactLoop r2
        (({ ki.generations.getD j1 zeroGen with
          revs := (ki.generations.getD j1 zeroGen).revs.drop p1 })
          :: ki.generations.drop (j1 + 1)) = some (jd - j1) := by
      rw [doCompactLoop_congr_head _ (ki.generations.getD j1 zeroGen) _ r2
        htne hgne hlast,
        ← drop_eq_getD_cons zeroGen _ j1 hj1len]
      exact hdrop
    have hj2e : doCompactLoop r2
        (({ ki.generations.getD j1 zeroGen with
          revs := (ki.generations.getD j1 zeroGen).revs.drop p1 })
          :: ki.generations.drop (j1 + 1)) = some j2 := hj2
    rw [hloop2] at hj2e
    cases hj2e
    by_cases hjeq : jd = j1
    · -- the second compact stops at the same, already trimmed generation
      subst hjeq
      simp only [Nat.sub_self] at hcase2
      rcases hcased with ⟨hwd, heqd⟩ | ⟨pd, hwd, heqd⟩
      · obtain ⟨px, hpx, _⟩ := walkLE_mono _ r1 r2 p1 hr hw1
        rw [hwd] at hpx
        cases hpx
      · obtain ⟨px, hpx, hp1le⟩ := walkLE_mono _ r1 r2 p1 hr hw1
        rw [hwd] at hpx
        cases hpx
        have hwt : walkLE ((ki.generations.getD jd zeroGen).revs.drop p1) r2
            = some (pd - p1) := walkLE_drop_sub p1 _ r2 pd hwd hp1le
        rcases hcase2 with ⟨hw2, heq2⟩ | ⟨p2, hw2, heq2⟩
        · have hw2e : walkLE ((ki.generations.getD jd zeroGen).revs.drop p1)
              r2 = none := hw2
          rw [hwt] at hw2e
          cases hw2e
        · have hw2e : walkLE ((ki.generations.getD jd zeroGen).revs.drop p1)
              r2 = some p2 := hw2
          rw [hwt] at hw2e
          cases hw2e
          have hdd3 : ((ki.generations.getD jd zeroGen).revs.drop p1).drop
              (pd - p1) = (ki.generations.getD jd zeroGen).revs.drop pd := by
            rw [List.drop_drop]
            have he : p1 + (pd - p1) = pd := by omega
            rw [he]
          simp only [Nat.zero_add, List.getD_cons_zero, List.drop_one,
            List.tail_cons, List.drop_zero] at heq2
          rw [hdd3] at heq2
          exact ⟨_, _, _, heq2, heqd⟩
    · -- the second compact stops at a later, untouched generation
      obtain ⟨k, hk⟩ : ∃ k, jd - j1 = k + 1 := ⟨jd - j1 - 1, by omega⟩
      have hgd2 : (({ ki.generations.getD j1 zeroGen with
          revs := (ki.generations.getD j1 zeroGen).revs.drop p1 })
            :: ki.generations.drop (j1 + 1)).getD (jd - j1) zeroGen
          = ki.generations.getD jd zeroGen := by
        rw [hk, List.getD_cons_succ, getD_drop]
        have he : j1 + 1 + k = jd := by omega
        rw [he]
      rcases hcased with ⟨hwd, heqd⟩ | ⟨pd, hwd, heqd⟩
      · rcases hcase2 with ⟨hw2, heq2⟩ | ⟨p2, hw2, heq2⟩
        · have hdd4 : (({ ki.generations.getD j1 zeroGen with
              revs := (ki.generations.getD j1 zeroGen).revs.drop p1 })
                :: ki.generations.drop (j1 + 1)).drop (jd - j1)
              = ki.generations.drop jd := by
            rw [hk, List.drop_succ_cons, List.drop_drop]
            have he : j1 + 1 + k = jd := by omega
            rw [he]
          dsimp only at heq2
          rw [hdd4] at heq2
          exact ⟨_, _, _, heq2, heqd⟩
        · have hw2e := hw2
          rw [hgd2, hwd] at hw2e
          cases hw2e
      · rcases hcase2 with ⟨hw2, heq2⟩ | ⟨p2, hw2, heq2⟩
        · have hw2e := hw2
          rw [hgd2, hwd] at hw2e
          cases hw2e
        · have hw2e := hw2
          rw [hgd2, hwd] at hw2e
          cases hw2e
          have hdd5 : (({ ki.generations.getD j1 zeroGen with
              revs := (ki.generations.getD j1 zeroGen).revs.drop p1 })
                :: ki.generations.drop (j1 + 1)).drop (jd - j1 + 1)
              = ki.generations.drop (jd + 1) := by
            rw [List.drop_succ_cons, List.drop_drop]
            have he : j1 + 1 + (jd - j1) = jd + 1 := by omega
            rw [he]
          dsimp only at heq2
          rw [hgd2, hdd5] at heq2
          exact ⟨_, _, _, heq2, heqd⟩


theorem getD_dropLast (l : List generation) (j : Nat) (hj : j + 1 < l.length) :
    l.dropLast.getD j zeroGen = l.getD j zeroGen := by
  rw [List.dropLast_eq_take, List.getD_eq_getElem?_getD,
    List.getD_eq_getElem?_getD, List.getElem?_take_of_lt (by omega)]

theorem put_compactWF (ki ki1 : keyIndex) (main sub : Int)
    (h : ki.put main sub = some ki1)
    (hwf : ki.generations = [] ∨ ki.compactWF) : ki1.compactWF := by
  unfold keyIndex.put at h
  by_cases hgt : revision.GreaterThan ⟨main, sub⟩ ki.modified
  swap
  · rw [if_neg hgt] at h; cases h
  rw [if_pos hgt] at h
  rcases hwf with hemp | ⟨hne0, hwf2⟩
  · rw [hemp] at h
    simp at h
    subst h
    constructor
    · simp
    · intro j hj
      simp at hj
  · have hlen0 : ¬ ki.generations.length = 0 := by
      simpa [List.length_eq_zero] using hne0
    rw [if_neg hlen0] at h
    cases hgl : ki.generations.getLast? with
    | none => simp only [hgl] at h; cases h
    | some g =>
      simp only [hgl, Option.some.injEq] at h
      subst h
      constructor
      · simp
      · intro j hj
        simp only [List.length_append, List.length_dropLast,
          List.length_singleton] at hj
        rw [List.getD_append _ _ _ _ (by
          simp only [List.length_dropLast]; omega)]
        rw [getD_dropLast _ j (by omega)]
        exact hwf2 j (by omega)

theorem put_last_two (ki kip : keyIndex) (main sub : Int) (g : generation)
    (hgl : ki.generations.getLast? = some g) (hge : g.isEmpty = false)
    (h : ki.put main sub = some kip) :
    ∃ g2, kip.generations.getLast? = some g2 ∧ 2 ≤ g2.revs.length := by
  unfold keyIndex.put at h
  by_cases hgt : revision.GreaterThan ⟨main, sub⟩ ki.modified
  swap
  · rw [if_neg hgt] at h; cases h
  rw [if_pos hgt] at h
  have hne0 : ki.generations ≠ [] := by
    intro hc
    rw [hc] at hgl
    cases hgl
  have hlen0 : ¬ ki.generations.length = 0 := by
    simpa [List.length_eq_zero] using hne0
  rw [if_neg hlen0] at h
  simp only [hgl, Option.some.injEq] at h
  have hgrne : ¬ g.revs.length = 0 := by
    unfold generation.isEmpty at hge
    have hne : g.revs ≠ [] := by
      intro hc
      rw [hc] at hge
      simp at hge
    simpa [List.length_eq_zero] using hne
  rw [if_neg hgrne] at h
  subst h
  refine ⟨generation.mk (g.ver + 1) g.created
    (g.revs ++ [(⟨main, sub⟩ : revision)]), ?_, ?_⟩
  · dsimp only
    exact List.getLast?_concat _
  · dsimp only
    rw [List.length_append]
    simp only [List.length_singleton]
    omega

theorem tombstone_compactWF (ki ki1 : keyIndex) (main sub : Int)
    (h : ki.tombstone main sub = some (.ok ki1)) (hwf : ki.compactWF) :
    ki1.compactWF := by
  unfold keyIndex.tombstone at h
  by_cases hie : ki.isEmpty
  · rw [if_pos hie] at h; cases h
  rw [if_neg hie] at h
  cases hgl : ki.generations.getLast? with
  | none => simp only [hgl] at h; cases h
  | some g =>
    simp only [hgl] at h
    by_cases hge : g.isEmpty
    · rw [if_pos hge] at h; simp at h
    · rw [if_neg hge] at h
      cases hput : ki.put main sub with
      | none => simp only [hput] at h; cases h
      | some kip =>
        simp only [hput, Option.some.injEq, Except.ok.injEq] at h
        subst h
        have hkipwf := put_compactWF ki kip main sub hput (Or.inr hwf)
        obtain ⟨g2, hg2, hg2len⟩ := put_last_two ki kip main sub g hgl
          (by cases hgeb : g.isEmpty; rfl; exact absurd hgeb hge) hput
        obtain ⟨hkne, hkwf2⟩ := hkipwf
        constructor
        · simp
        · intro j hj
          simp only [List.length_append, List.length_singleton] at hj
          rw [List.getD_append _ _ _ _ (by omega)]
          by_cases hlt : j < kip.generations.length - 1
          · exact hkwf2 j hlt
          · have hj' : j = kip.generations.length - 1 := by omega
            subst hj'
            rw [← lastD_eq_getD zeroGen, List.getLastD_eq_getLast?, hg2]
            exact hg2len


instance decEqExceptUnitKeyIndex : DecidableEq (Except Unit keyIndex) := fun x y =>
  match x, y with
  | .error a, .error b =>
    if h : a = b then isTrue (by rw [h])
    else isFalse (by intro hc; cases hc; exact h rfl)
  | .ok a, .ok b =>
    if h : a = b then isTrue (by rw [h])
    else isFalse (by intro hc; cases hc; exact h rfl)
  | .error a, .ok b => isFalse (by intro hc; cases hc)
  | .ok a, .error b => isFalse (by intro hc; cases hc)

instance decCompactWF (ki : keyIndex) : Decidable ki.compactWF :=
  inferInstanceAs (Decidable (ki.generations ≠ [] ∧
    ∀ j < ki.generations.length - 1,
      2 ≤ (ki.generations.getD j zeroGen).revs.length))

/-- C7 counterexample: the keyIndex built by put(1.0); tombstone(2.0) is
non-empty, but compact(2) empties it (only the open empty generation
remains) and a second compact(2) then panics on the empty keyIndex, so
compact(2) twice is not compact(2) once. -/
theorem c7_compact_cex :
    ((keyIndex.mk [107] zeroRev []).put 1 0).bind (fun k => k.tombstone 2 0)
      = some (.ok (keyIndex.mk [107] ⟨2, 0⟩
          [generation.mk 2 ⟨1, 0⟩ [⟨1, 0⟩, ⟨2, 0⟩], zeroGen]))
    ∧ (keyIndex.mk [107] ⟨2, 0⟩
        [generation.mk 2 ⟨1, 0⟩ [⟨1, 0⟩, ⟨2, 0⟩], zeroGen]).compact 2 []
      = some (keyIndex.mk [107] ⟨2, 0⟩ [zeroGen], [])
    ∧ (keyIndex.mk [107] ⟨2, 0⟩ [zeroGen]).isEmpty = true
    ∧ (keyIndex.mk [107] ⟨2, 0⟩ [zeroGen]).compact 2 [] = none := by
  decide

/-- C7 amended: on a well-formed keyIndex (at least one generation, every
non-last generation holding at least two revisions - what put and
tombstone build), whenever compact(r) succeeds and leaves a non-empty
keyIndex, running compact(r) again returns the same keyIndex and
available map; and for r1 ≤ r2, compact(r1) followed by compact(r2)
yields the same keyIndex as compact(r2) alone (the available maps may
differ: the first call records the revision it stopped at). When the
first compact empties the keyIndex the second call panics instead. -/
theorem c7_compact_idem_comp :
    (∀ (ki ki1 : keyIndex) (r : Int) (avail avail1 : List revision),
        ki.compactWF → ki.compact r avail = some (ki1, avail1) →
        ki1.isEmpty = false →
        ki1.compact r avail1 = some (ki1, avail1))
    ∧ (∀ (ki ki1 : keyIndex) (r1 r2 : Int) (avail avail1 : List revision),
        ki.compactWF → r1 ≤ r2 →
        ki.compact r1 avail = some (ki1, avail1) →
        ki1.isEmpty = false →
        ∃ ki2 a2 a2b, ki1.compact r2 avail1 = some (ki2, a2)
          ∧ ki.compact r2 avail = some (ki2, a2b)) :=
  ⟨fun ki ki1 r avail avail1 hwf h1 hne1 =>
      compact_idem ki ki1 r avail avail1 hwf h1 hne1,
    fun ki ki1 r1 r2 avail avail1 hwf hr h1 hne1 =>
      compact_comp ki ki1 r1 r2 avail avail1 hwf hr h1 hne1⟩

theorem c7_compact_idem_comp_witness :
    (keyIndex.mk [107] ⟨1, 0⟩ [generation.mk 1 ⟨1, 0⟩ [⟨1, 0⟩]]).compact 1
        [⟨1, 0⟩]
      = some (keyIndex.mk [107] ⟨1, 0⟩ [generation.mk 1 ⟨1, 0⟩ [⟨1, 0⟩]],
          [⟨1, 0⟩])
    ∧ ∃ ki2 a2 a2b,
        (keyIndex.mk [107] ⟨1, 0⟩
            [generation.mk 1 ⟨1, 0⟩ [⟨1, 0⟩]]).compact 1 []
          = some (ki2, a2)
        ∧ (keyIndex.mk [107] ⟨1, 0⟩
            [generation.mk 1 ⟨1, 0⟩ [⟨1, 0⟩]]).compact 1 []
          = some (ki2, a2b) :=
  ⟨c7_compact_idem_comp.1
      (keyIndex.mk [107] ⟨1, 0⟩ [generation.mk 1 ⟨1, 0⟩ [⟨1, 0⟩]])
      (keyIndex.mk [107] ⟨1, 0⟩ [generation.mk 1 ⟨1, 0⟩ [⟨1, 0⟩]])
      1 [] [⟨1, 0⟩] (by decide) (by decide) (by decide),
    c7_compact_idem_comp.2
      (keyIndex.mk [107] ⟨1, 0⟩ [generation.mk 1 ⟨1, 0⟩ [⟨1, 0⟩]])
      (keyIndex.mk [107] ⟨1, 0⟩ [generation.mk 1 ⟨1, 0⟩ [⟨1, 0⟩]])
      0 1 [] [] (by decide) (by decide) (by decide) (by decide)⟩

end Mvcc

namespace Buf

/-- A buffered key-value pair (kv of tx_buffer.go); byte slices are lists
of byte values. -/
structure kv where
  key : List Nat
  val : List Nat
deriving Repr, DecidableEq

/-- The Go zero value of kv. -/
def zeroKV : kv := ⟨[], []⟩

instance : Inhabited kv := ⟨zeroKV⟩

/-- bytes.Compare: lexicographic byte-slice comparison, a proper prefix
compares below. -/
def bytesCompare : List Nat → List Nat → Ordering
| [], [] => .eq
| [], _ :: _ => .lt
| _ :: _, [] => .gt
| a :: as, b :: bs =>
  if a < b then .lt else if b < a then .gt else bytesCompare as bs

/-- bucketBuffer (tx_buffer.go): a backing array of kv slots of which the
first used are live. -/
structure bucketBuffer where
  buf : List kv
  used : Nat
deriving Repr, DecidableEq

/-- bucketBufferInitialSize. -/
def bucketBufferInitialSize : Nat := 512

/-- newBucketBuffer: 512 zero slots, none used. -/
def newBucketBuffer : bucketBuffer :=
  ⟨List.replicate bucketBufferInitialSize zeroKV, 0⟩

/-- bucketBuffer.add. The unchecked Go write buf[used] becomes none when
used is out of bounds; when the slots are exhausted the backing array
grows to 3*len/2 (make + copy keeps the old contents and zero-fills the
rest). -/
def bucketBuffer.add (bb : bucketBuffer) (k v : List Nat) :
    Option bucketBuffer :=
  if bb.used < bb.buf.length then
    if bb.used + 1 = (bb.buf.set bb.used ⟨k, v⟩).length then
      some ⟨bb.buf.set bb.used ⟨k, v⟩
        ++ List.replicate (3 * (bb.buf.set bb.used ⟨k, v⟩).length / 2
            - (bb.buf.set bb.used ⟨k, v⟩).length) zeroKV,
        bb.used + 1⟩
    else some ⟨bb.buf.set bb.used ⟨k, v⟩, bb.used + 1⟩
  else none

/-- The probes of sort.Search inside bucketBuffer.Range: the least
i < used with bytes.Compare(buf[i].key, key) >= 0, else used. The fuel
argument counts the remaining positions (used - i); each probed slot is
read with a checked access, none being the Go panic of an out-of-bounds
probe. -/
def searchCnt (buf : List kv) (key : List Nat) : Nat → Nat → Option Nat
| i, 0 => some i
| i, n + 1 =>
  match buf[i]? with
  | none => none
  | some e =>
    if bytesCompare e.key key = .lt then searchCnt buf key (i + 1) n
    else some i

/-- The collection loop of bucketBuffer.Range: from position i while
i < used and fewer than limit keys collected, stop at the first key not
below endKey; the fuel argument is used - i. -/
def rangeCnt (buf : List kv) (endKey : List Nat) (limit : Int) :
    Nat → (List (List Nat) × List (List Nat)) → Nat →
    Option (List (List Nat) × List (List Nat))
| _, acc, 0 => some acc
| i, acc, n + 1 =>
  if (acc.1.length : Int) < limit then
    match buf[i]? with
    | none => none
    | some e =>
      if bytesCompare endKey e.key = .gt then
        rangeCnt buf endKey limit (i + 1) (acc.1 ++ [e.key], acc.2 ++ [e.val]) n
      else some acc
  else some acc

/-- bucketBuffer.Range. Every Go read buf[idx] / buf[i] is a checked
access (none = out-of-bounds panic); note the reads at the binary-search
result idx happen before any idx < used test, so idx = used reads the
first unused slot. -/
def bucketBuffer.Range (bb : bucketBuffer) (key endKey : List Nat)
    (limit : Int) : Option (List (List Nat) × List (List Nat)) :=
  match searchCnt bb.buf key 0 bb.used with
  | none => none
  | some idx =>
    if endKey.length = 0 then
      match bb.buf[idx]? with
      | none => none
      | some e =>
        if key = e.key then some ([e.key], [e.val]) else some ([], [])
    else
      match bb.buf[idx]? with
      | none => none
      | some e =>
        if bytesCompare endKey e.key = .gt then
          rangeCnt bb.buf endKey limit idx ([], []) (bb.used - idx)
        else some ([], [])

/-- The reads of bucketBuffer.ForEach (and of the copy loop of merge):
the slots buf[i], i < used, in order, each by a checked access; the
visitor itself is abstracted away. -/
def takeRange (buf : List kv) : Nat → Nat → Option (List kv)
| _, 0 => some []
| i, n + 1 =>
  match buf[i]? with
  | none => none
  | some e => (takeRange buf (i + 1) n).map (fun l => e :: l)

def bucketBuffer.ForEach (bb : bucketBuffer) : Option (List kv) :=
  takeRange bb.buf 0 bb.used

/-- The add loop at the top of bucketBuffer.merge. -/
def addAll (bb : bucketBuffer) : List kv → Option bucketBuffer
| [] => some bb
| e :: rest =>
  match bb.add e.key e.val with
  | none => none
  | some bb1 => addAll bb1 rest

/-- The deduplication loop of bucketBuffer.merge on the sorted live
prefix: each run of equal keys keeps its last (newest) element. cur is
buf[widx]; the Go write buf[widx] = buf[ridx] runs on every iteration, so
within a run the survivor is the run's last element. -/
def dedupKeep : kv → List kv → List kv
| cur, [] => [cur]
| cur, x :: rest =>
  if x.key = cur.key then dedupKeep x rest else cur :: dedupKeep x rest

/-- bucketBuffer.merge: add all of bbsrc's live slots, return early if bb
was empty or already ordered, otherwise stable-sort the live prefix by
key and deduplicate. Slots past the new used keep the sorted values, as
in Go where the dedup loop only writes at or below widx. -/
def bucketBuffer.merge (bb bbsrc : bucketBuffer) : Option bucketBuffer :=
  match bbsrc.ForEach with
  | none => none
  | some srcs =>
    match addAll bb srcs with
    | none => none
    | some bb1 =>
      if bb1.used = bbsrc.used then some bb1
      else
        match bb1.buf[bb1.used - bbsrc.used - 1]?, bbsrc.buf[0]? with
        | some a, some b =>
          if bytesCompare a.key b.key = .lt then some bb1
          else
            match (bb1.buf.take bb1.used).mergeSort
                (fun x y => ¬ bytesCompare y.key x.key = .lt) with
            | [] => some ⟨bb1.buf, 1⟩
            | h :: t =>
              some ⟨dedupKeep h t
                ++ ((h :: t) ++ bb1.buf.drop bb1.used).drop
                  (dedupKeep h t).length,
                (dedupKeep h t).length⟩
        | _, _ => none

/-- The safety invariant: the live count stays strictly below the backing
array length (so the slot at index used exists), and the array never
shrinks below two slots (so growth is strict). -/
def Good (bb : bucketBuffer) : Prop :=
  bb.used < bb.buf.length ∧ 2 ≤ bb.buf.length

/-- Buffers reachable from newBucketBuffer by add and merge, the only
operations that modify a bucketBuffer. -/
inductive Reach : bucketBuffer → Prop where
  | new : Reach newBucketBuffer
  | add {bb bb2 : bucketBuffer} {k v : List Nat} :
      Reach bb → bb.add k v = some bb2 → Reach bb2
  | merge {bb bbsrc bb2 : bucketBuffer} :
      Reach bb → Reach bbsrc → bb.merge bbsrc = some bb2 → Reach bb2


theorem add_spec (bb : bucketBuffer) (k v : List Nat) (h : Good bb) :
    ∃ bb2, bb.add k v = some bb2 ∧ Good bb2
      ∧ bb2.used = bb.used + 1 := by
  obtain ⟨h1, h2⟩ := h
  unfold bucketBuffer.add
  rw [if_pos h1]
  by_cases he : bb.used + 1 = (bb.buf.set bb.used ⟨k, v⟩).length
  · rw [if_pos he]
    rw [List.length_set] at he
    refine ⟨_, rfl, ⟨?_, ?_⟩, rfl⟩
    · show bb.used + 1 < (bb.buf.set bb.used ⟨k, v⟩
          ++ List.replicate _ zeroKV).length
      rw [List.length_append, List.length_set, List.length_replicate]
      omega
    · show 2 ≤ (bb.buf.set bb.used ⟨k, v⟩
          ++ List.replicate _ zeroKV).length
      rw [List.length_append, List.length_set]
      omega
  · rw [if_neg he]
    rw [List.length_set] at he
    refine ⟨_, rfl, ⟨?_, ?_⟩, rfl⟩
    · show bb.used + 1 < (bb.buf.set bb.used ⟨k, v⟩).length
      rw [List.length_set]
      omega
    · show 2 ≤ (bb.buf.set bb.used ⟨k, v⟩).length
      rw [List.length_set]
      omega

theorem addAll_spec : ∀ (srcs : List kv) (bb : bucketBuffer), Good bb →
    ∃ bb2, addAll bb srcs = some bb2 ∧ Good bb2
      ∧ bb2.used = bb.used + srcs.length
| [], bb, h => ⟨bb, rfl, h, rfl⟩
| e :: rest, bb, h => by
  obtain ⟨bb1, hadd, hg1, hu1⟩ := add_spec bb e.key e.val h
  obtain ⟨bb2, hrec, hg2, hu2⟩ := addAll_spec rest bb1 hg1
  refine ⟨bb2, ?_, hg2, ?_⟩
  · unfold addAll
    simp only [hadd]
    exact hrec
  · rw [hu2, hu1]
    simp only [List.length_cons]
    omega

theorem takeRange_spec : ∀ (n i : Nat) (buf : List kv),
    i + n ≤ buf.length →
    ∃ l, takeRange buf i n = some l ∧ l.length = n
| 0, i, buf, _ => ⟨[], rfl, rfl⟩
| n + 1, i, buf, h => by
  obtain ⟨l, hrec, hlen⟩ := takeRange_spec n (i + 1) buf (by omega)
  refine ⟨buf[i] :: l, ?_, by simp [hlen]⟩
  unfold takeRange
  rw [List.getElem?_eq_getElem (by omega)]
  simp only [hrec, Option.map_some']

theorem searchCnt_spec : ∀ (n i : Nat) (buf : List kv) (key : List Nat),
    i + n ≤ buf.length →
    ∃ j, searchCnt buf key i n = some j ∧ j ≤ i + n
| 0, i, buf, key, _ => ⟨i, rfl, Nat.le_refl i⟩
| n + 1, i, buf, key, h => by
  obtain ⟨j, hrec, hj⟩ := searchCnt_spec n (i + 1) buf key (by omega)
  unfold searchCnt
  simp only [List.getElem?_eq_getElem (show i < buf.length by omega)]
  by_cases hc : bytesCompare buf[i].key key = .lt
  · rw [if_pos hc]
    exact ⟨j, hrec, by omega⟩
  · rw [if_neg hc]
    exact ⟨i, rfl, by omega⟩

theorem rangeCnt_spec : ∀ (n i : Nat) (buf : List kv)
    (endKey : List Nat) (limit : Int)
    (acc : List (List Nat) × List (List Nat)),
    i + n ≤ buf.length →
    ∃ res, rangeCnt buf endKey limit i acc n = some res
| 0, i, buf, endKey, limit, acc, _ => ⟨acc, rfl⟩
| n + 1, i, buf, endKey, limit, acc, h => by
  unfold rangeCnt
  by_cases hl : (acc.1.length : Int) < limit
  · rw [if_pos hl]
    cases hgi : buf[i]? with
    | none =>
      rw [List.getElem?_eq_getElem (show i < buf.length by omega)] at hgi
      cases hgi
    | some e =>
      simp only [hgi]
      by_cases hc : bytesCompare endKey e.key = .gt
      · rw [if_pos hc]
        exact rangeCnt_spec n (i + 1) buf endKey limit _ (by omega)
      · rw [if_neg hc]
        exact ⟨acc, rfl⟩
  · rw [if_neg hl]
    exact ⟨acc, rfl⟩

theorem foreach_spec (bb : bucketBuffer) (h : bb.used ≤ bb.buf.length) :
    ∃ l, bb.ForEach = some l ∧ l.length = bb.used := by
  unfold bucketBuffer.ForEach
  exact takeRange_spec bb.used 0 bb.buf (by omega)

theorem range_spec (bb : bucketBuffer) (key endKey : List Nat)
    (limit : Int) (h : Good bb) :
    ∃ res, bb.Range key endKey limit = some res := by
  obtain ⟨h1, h2⟩ := h
  unfold bucketBuffer.Range
  obtain ⟨idx, hidx, hle⟩ := searchCnt_spec bb.used 0 bb.buf key (by omega)
  simp only [hidx]
  have hidxlt : idx < bb.buf.length := by omega
  simp only [List.getElem?_eq_getElem hidxlt]
  by_cases hek : endKey.length = 0
  · rw [if_pos hek]
    by_cases hkey : key = bb.buf[idx].key
    · rw [if_pos hkey]
      exact ⟨_, rfl⟩
    · rw [if_neg hkey]
      exact ⟨_, rfl⟩
  · rw [if_neg hek]
    by_cases hc : bytesCompare endKey bb.buf[idx].key = .gt
    · rw [if_pos hc]
      exact rangeCnt_spec (bb.used - idx) idx bb.buf endKey limit _ (by omega)
    · rw [if_neg hc]
      exact ⟨_, rfl⟩

theorem dedupKeep_len : ∀ (t : List kv) (cur : kv),
    1 ≤ (dedupKeep cur t).length ∧ (dedupKeep cur t).length ≤ t.length + 1
| [], cur => by simp [dedupKeep]
| x :: rest, cur => by
  obtain ⟨hl, hu⟩ := dedupKeep_len rest x
  unfold dedupKeep
  by_cases hx : x.key = cur.key
  · rw [if_pos hx]
    simp only [List.length_cons]
    omega
  · rw [if_neg hx]
    simp only [List.length_cons]
    omega

theorem merge_spec (bb bbsrc : bucketBuffer) (hb : Good bb)
    (hs : Good bbsrc) :
    ∃ bb2, bb.merge bbsrc = some bb2 ∧ Good bb2 := by
  obtain ⟨hs1, hs2⟩ := hs
  obtain ⟨srcs, hfe, hsl⟩ := foreach_spec bbsrc (by omega)
  obtain ⟨bb1, hall, hg1, hu1⟩ := addAll_spec srcs bb hb
  unfold bucketBuffer.merge
  simp only [hfe, hall]
  by_cases heq : bb1.used = bbsrc.used
  · rw [if_pos heq]
    exact ⟨bb1, rfl, hg1⟩
  · rw [if_neg heq]
    obtain ⟨hg1a, hg1b⟩ := hg1
    have hlt1 : bb1.used - bbsrc.used - 1 < bb1.buf.length := by omega
    simp only [List.getElem?_eq_getElem hlt1,
      List.getElem?_eq_getElem (show 0 < bbsrc.buf.length by omega)]
    by_cases hc : bytesCompare bb1.buf[bb1.used - bbsrc.used - 1].key
        bbsrc.buf[0].key = .lt
    · rw [if_pos hc]
      exact ⟨bb1, rfl, hg1a, hg1b⟩
    · rw [if_neg hc]
      cases hms : (bb1.buf.take bb1.used).mergeSort
          (fun x y => ¬ bytesCompare y.key x.key = .lt) with
      | nil =>
        refine ⟨_, rfl, ?_, ?_⟩
        · show (1 : Nat) < bb1.buf.length
          omega
        · exact hg1b
      | cons h t =>
        have hmslen : ((h :: t) : List kv).length
            = min bb1.used bb1.buf.length := by
          rw [← hms, List.length_mergeSort, List.length_take]
        obtain ⟨hd1, hd2⟩ := dedupKeep_len t h
        simp only [List.length_cons] at hmslen
        refine ⟨_, rfl, ?_, ?_⟩
        · show (dedupKeep h t).length
            < (dedupKeep h t
              ++ ((h :: t) ++ bb1.buf.drop bb1.used).drop
                (dedupKeep h t).length).length
          rw [List.length_append, List.length_drop, List.length_append,
            List.length_drop, List.length_cons]
          omega
        · show 2 ≤ (dedupKeep h t
              ++ ((h :: t) ++ bb1.buf.drop bb1.used).drop
                (dedupKeep h t).length).length
          rw [List.length_append, List.length_drop, List.length_append,
            List.length_drop, List.length_cons]
          omega

theorem reach_good : ∀ (bb : bucketBuffer), Reach bb → Good bb := by
  intro bb h
  induction h with
  | new =>
    have hlen : newBucketBuffer.buf.length = 512 := by
      show (List.replicate bucketBufferInitialSize zeroKV).length = 512
      rw [List.length_replicate]
      rfl
    have hused : newBucketBuffer.used = 0 := rfl
    exact ⟨by rw [hlen, hused]; omega, by rw [hlen]; omega⟩
  | add hr hadd ih =>
    obtain ⟨bb2x, hax, hgx, _⟩ := add_spec _ _ _ ih
    rw [hadd] at hax
    cases hax
    exact hgx
  | merge hr hrs hmg ihb ihs =>
    obtain ⟨bb2x, hmx, hgx⟩ := merge_spec _ _ ihb ihs
    rw [hmg] at hmx
    cases hmx
    exact hgx


/-- C9: in every bucketBuffer reachable from newBucketBuffer by add and
merge, used stays strictly below len(buf), and consequently every index
access of add, merge, Range (including the read of buf[idx] at the
binary-search result, which can equal used) and ForEach is in bounds for
all key/endKey/limit inputs: none of the checked-access embeddings ever
returns the out-of-bounds marker. -/
theorem c9_bucket_buffer_safety :
    (∀ bb, Reach bb → bb.used < bb.buf.length)
    ∧ (∀ bb (k v : List Nat), Reach bb → ∃ bb2, bb.add k v = some bb2)
    ∧ (∀ bb bbsrc, Reach bb → Reach bbsrc →
        ∃ bb2, bb.merge bbsrc = some bb2)
    ∧ (∀ bb (key endKey : List Nat) (limit : Int), Reach bb →
        ∃ res, bb.Range key endKey limit = some res)
    ∧ (∀ bb, Reach bb → ∃ l, bb.ForEach = some l ∧ l.length = bb.used) := by
  refine ⟨?_, ?_, ?_, ?_, ?_⟩
  · exact fun bb h => (reach_good bb h).1
  · intro bb k v h
    obtain ⟨bb2, ha, _, _⟩ := add_spec bb k v (reach_good bb h)
    exact ⟨bb2, ha⟩
  · intro bb bbsrc h hs
    obtain ⟨bb2, hm, _⟩ :=
      merge_spec bb bbsrc (reach_good bb h) (reach_good bbsrc hs)
    exact ⟨bb2, hm⟩
  · exact fun bb key endKey limit h =>
      range_spec bb key endKey limit (reach_good bb h)
  · exact fun bb h => foreach_spec bb (Nat.le_of_lt (reach_good bb h).1)

theorem c9_bucket_buffer_safety_witness :
    newBucketBuffer.used < newBucketBuffer.buf.length
    ∧ (∃ bb2, newBucketBuffer.add [1] [2] = some bb2)
    ∧ (∃ res, newBucketBuffer.Range [1] [] 0 = some res) :=
  ⟨c9_bucket_buffer_safety.1 newBucketBuffer Reach.new,
    c9_bucket_buffer_safety.2.1 newBucketBuffer [1] [2] Reach.new,
    c9_bucket_buffer_safety.2.2.2.1 newBucketBuffer [1] [] 0 Reach.new⟩

end Buf
